import Mathlib

/-!
Verification of the coursework repository (statistics, base conversion,
word count, sales aggregation, hotel CRUD) against its specification.

Python numbers are modelled as `ℚ` (exact arithmetic), Python ints as `ℤ`,
strings as Lean `String`s compared by code points, dicts as insertion-ordered
association lists, and fallible operations as `Option`.
-/

/- ## Shared digit / numeral machinery -/

/-- The character `str(d)` for a decimal digit value `d ≤ 9`. -/
def digitChar (d : ℕ) : Char :=
  match d with
  | 0 => '0' | 1 => '1' | 2 => '2' | 3 => '3' | 4 => '4'
  | 5 => '5' | 6 => '6' | 7 => '7' | 8 => '8' | 9 => '9'
  | _ => '?'

/-- `HEX_DIGITS = "0123456789ABCDEF"` from convertNumbers.py, as a char list. -/
def HEX_DIGITS : List Char :=
  ['0', '1', '2', '3', '4', '5', '6', '7', '8', '9', 'A', 'B', 'C', 'D', 'E', 'F']

/- ## convertNumbers.py : `to_binary` and `to_hexadecimal` -/

/-- `to_binary` from convertNumbers.py: sign prefix plus the base-2 digits
obtained by repeated division by 2, most significant first. -/
def to_binary (n : ℤ) : String :=
  if n = 0 then "0"
  else
    let sign : List Char := if n < 0 then ['-'] else []
    String.mk (sign ++ (Nat.digits 2 n.natAbs).reverse.map digitChar)

/-- `to_hexadecimal` from convertNumbers.py: sign prefix plus the base-16
digits `HEX_DIGITS[n % 16]` obtained by repeated division by 16. -/
def to_hexadecimal (n : ℤ) : String :=
  if n = 0 then "0"
  else
    let sign : List Char := if n < 0 then ['-'] else []
    String.mk (sign ++ (Nat.digits 16 n.natAbs).reverse.map (fun d => HEX_DIGITS.getD d '0'))

/-- Value of one binary digit character. -/
def binDigitVal (c : Char) : Option ℕ :=
  if c = '0' then some 0 else if c = '1' then some 1 else none

/-- Value of one hexadecimal digit character over the alphabet 0123456789ABCDEF. -/
def hexDigitVal (c : Char) : Option ℕ :=
  HEX_DIGITS.indexOf? c

/-- Fold digit characters (most significant first) into a natural number;
`none` as soon as one character is not a digit of the base. -/
def decodeDigitsGo (dv : Char → Option ℕ) (b : ℕ) (acc : ℕ) : List Char → Option ℕ
  | [] => some acc
  | c :: cs =>
    match dv c with
    | some d => decodeDigitsGo dv b (acc * b + d) cs
    | none => none

/-- Interpret a string as a base-`b` numeral with an optional leading
minus sign; `none` on the empty string, a bare sign, or an invalid digit. -/
def decodeNumeral (dv : Char → Option ℕ) (b : ℕ) (s : String) : Option ℤ :=
  match s.toList with
  | [] => none
  | c :: cs =>
    if c = '-' then
      if cs.isEmpty then none
      else (decodeDigitsGo dv b 0 cs).map (fun v : ℕ => -(v : ℤ))
    else (decodeDigitsGo dv b 0 (c :: cs)).map (fun v : ℕ => (v : ℤ))

theorem decodeDigitsGo_map (dv : Char → Option ℕ) (b : ℕ) (enc : ℕ → Char)
    (ds : List ℕ) (henc : ∀ d ∈ ds, dv (enc d) = some d) :
    ∀ acc : ℕ, decodeDigitsGo dv b acc (ds.map enc) =
      some (ds.foldl (fun a d => a * b + d) acc) := by
  induction ds with
  | nil => intro acc; rfl
  | cons d ds ih =>
    intro acc
    have hd : dv (enc d) = some d := henc d (List.mem_cons_self d ds)
    simp only [List.map_cons, decodeDigitsGo, hd, List.foldl_cons]
    exact ih (fun x hx => henc x (List.mem_cons_of_mem d hx)) (acc * b + d)

theorem foldl_digits_eq_ofDigits (b : ℕ) (ds : List ℕ) :
    ∀ acc : ℕ, ds.foldl (fun a d => a * b + d) acc =
      acc * b ^ ds.length + Nat.ofDigits b ds.reverse := by
  induction ds with
  | nil => intro acc; simp [Nat.ofDigits]
  | cons d ds ih =>
    intro acc
    simp only [List.foldl_cons, List.reverse_cons, List.length_cons]
    rw [ih (acc * b + d), Nat.ofDigits_append]
    simp [Nat.ofDigits, pow_succ]
    ring

theorem decode_digits_reverse (dv : Char → Option ℕ) (b : ℕ) (enc : ℕ → Char)
    (m : ℕ) (hb : 1 < b)
    (henc : ∀ d, d < b → dv (enc d) = some d) :
    decodeDigitsGo dv b 0 ((Nat.digits b m).reverse.map enc) = some m := by
  rw [decodeDigitsGo_map dv b enc ((Nat.digits b m).reverse)
      (fun d hd => henc d (Nat.digits_lt_base hb (List.mem_reverse.mp hd)))]
  rw [foldl_digits_eq_ofDigits, List.reverse_reverse, Nat.ofDigits_digits,
    Nat.zero_mul, Nat.zero_add]

theorem binDigitVal_digitChar (d : ℕ) (hd : d < 2) :
    binDigitVal (digitChar d) = some d := by
  interval_cases d <;> decide

theorem hexDigitVal_getD (d : ℕ) (hd : d < 16) :
    hexDigitVal (HEX_DIGITS.getD d '0') = some d := by
  interval_cases d <;> decide

theorem digitChar_ne_dash (d : ℕ) (hd : d < 2) : digitChar d ≠ '-' := by
  interval_cases d <;> decide

theorem hexChar_ne_dash (d : ℕ) (hd : d < 16) : HEX_DIGITS.getD d '0' ≠ '-' := by
  interval_cases d <;> decide

theorem decodeNumeral_pos (dv : Char → Option ℕ) (b : ℕ) (c : Char) (cs : List Char)
    (hc : c ≠ '-') :
    decodeNumeral dv b (String.mk (c :: cs)) =
      (decodeDigitsGo dv b 0 (c :: cs)).map (fun v : ℕ => (v : ℤ)) := by
  simp [decodeNumeral, String.toList, hc]

theorem decodeNumeral_neg (dv : Char → Option ℕ) (b : ℕ) (c : Char) (cs : List Char) :
    decodeNumeral dv b (String.mk ('-' :: c :: cs)) =
      (decodeDigitsGo dv b 0 (c :: cs)).map (fun v : ℕ => -(v : ℤ)) := by
  simp [decodeNumeral, String.toList]

theorem decode_encode_base (b : ℕ) (hb : 1 < b) (dv : Char → Option ℕ) (enc : ℕ → Char)
    (henc : ∀ d, d < b → dv (enc d) = some d)
    (hdash : ∀ d, d < b → enc d ≠ '-') (n : ℤ) (hn : n ≠ 0) :
    decodeNumeral dv b
      (String.mk ((if n < 0 then ['-'] else []) ++ (Nat.digits b n.natAbs).reverse.map enc)) =
      some n := by
  have hma : n.natAbs ≠ 0 := Int.natAbs_ne_zero.mpr hn
  have hdig : Nat.digits b n.natAbs ≠ [] := by
    exact Nat.digits_ne_nil_iff_ne_zero.mpr hma
  obtain ⟨d, ds, hds⟩ : ∃ d ds, (Nat.digits b n.natAbs).reverse = d :: ds := by
    rcases h : (Nat.digits b n.natAbs).reverse with _ | ⟨d, ds⟩
    · exact absurd (List.reverse_eq_nil_iff.mp h) hdig
    · exact ⟨d, ds, rfl⟩
  have hdlt : d < b := by
    have : d ∈ Nat.digits b n.natAbs := by
      have : d ∈ (Nat.digits b n.natAbs).reverse := by rw [hds]; exact List.mem_cons_self d ds
      exact List.mem_reverse.mp this
    exact Nat.digits_lt_base hb this
  have hdec : decodeDigitsGo dv b 0 ((Nat.digits b n.natAbs).reverse.map enc) =
      some n.natAbs := decode_digits_reverse dv b enc n.natAbs hb henc
  by_cases hneg : n < 0
  · rw [if_pos hneg, hds, List.map_cons, List.singleton_append]
    rw [decodeNumeral_neg, ← List.map_cons, ← hds, hdec]
    simp only [Option.map_some']
    congr 1
    omega
  · rw [if_neg hneg, List.nil_append, hds, List.map_cons]
    rw [decodeNumeral_pos dv b (enc d) (ds.map enc) (hdash d hdlt),
      ← List.map_cons, ← hds, hdec]
    simp only [Option.map_some']
    congr 1
    omega

/-- C6: interpreting `to_binary n` as a signed base-2 numeral yields `n`, and
interpreting `to_hexadecimal n` as a signed base-16 numeral over the alphabet
0123456789ABCDEF yields `n`, for every integer `n` including 0 and negatives. -/
theorem convert_numbers_round_trip (n : ℤ) :
    decodeNumeral binDigitVal 2 (to_binary n) = some n ∧
    decodeNumeral hexDigitVal 16 (to_hexadecimal n) = some n := by
  by_cases hn : n = 0
  · subst hn
    constructor <;> rfl
  · constructor
    · rw [to_binary, if_neg hn]
      exact decode_encode_base 2 (by norm_num) binDigitVal digitChar
        binDigitVal_digitChar digitChar_ne_dash n hn
    · rw [to_hexadecimal, if_neg hn]
      exact decode_encode_base 16 (by norm_num) hexDigitVal (fun d => HEX_DIGITS.getD d '0')
        hexDigitVal_getD hexChar_ne_dash n hn

/- ## Decimal rendering (kernel-reducible digits, proven equal to `Nat.digits 10`) -/

/-- Little-endian decimal digits with explicit fuel (structural recursion). -/
def decDigitsFuel : ℕ → ℕ → List ℕ
  | 0, _ => []
  | _ + 1, 0 => []
  | fuel + 1, n + 1 => (n + 1) % 10 :: decDigitsFuel fuel ((n + 1) / 10)

/-- Little-endian decimal digits of `n` (empty for 0). -/
def decDigitsLE (n : ℕ) : List ℕ := decDigitsFuel n n

theorem decDigitsFuel_eq_digits (fuel : ℕ) :
    ∀ n : ℕ, n ≤ fuel → decDigitsFuel fuel n = Nat.digits 10 n := by
  induction fuel with
  | zero => intro n hn; interval_cases n; simp [decDigitsFuel]
  | succ fuel ih =>
    intro n hn
    match n with
    | 0 => simp [decDigitsFuel]
    | m + 1 =>
      rw [decDigitsFuel, Nat.digits_def' (by norm_num : (1:ℕ) < 10) (Nat.succ_pos m)]
      congr 1
      exact ih ((m + 1) / 10) (by omega)

theorem decDigitsLE_eq_digits (n : ℕ) : decDigitsLE n = Nat.digits 10 n :=
  decDigitsFuel_eq_digits n n le_rfl

/-- Big-endian decimal digits of `n`, with `[0]` for 0 (what `str(n)` prints). -/
def digitsBE (n : ℕ) : List ℕ :=
  if n = 0 then [0] else (decDigitsLE n).reverse

/-- Decimal rendering of a natural number, as Python `str` would print it. -/
def natRepr (n : ℕ) : String := String.mk ((digitsBE n).map digitChar)

/-- Value of a big-endian decimal digit list. -/
def valBE (ds : List ℕ) : ℕ := Nat.ofDigits 10 ds.reverse

theorem digitsBE_lt (n : ℕ) : ∀ d ∈ digitsBE n, d < 10 := by
  intro d hd
  rw [digitsBE] at hd
  by_cases hn : n = 0
  · simp [hn] at hd; omega
  · rw [if_neg hn, decDigitsLE_eq_digits, List.mem_reverse] at hd
    exact Nat.digits_lt_base (by norm_num) hd

theorem digitsBE_val (n : ℕ) : valBE (digitsBE n) = n := by
  rw [digitsBE]
  by_cases hn : n = 0
  · simp [hn, valBE, Nat.ofDigits]
  · rw [if_neg hn, valBE, List.reverse_reverse, decDigitsLE_eq_digits, Nat.ofDigits_digits]

theorem digitsBE_ne_nil (n : ℕ) : digitsBE n ≠ [] := by
  rw [digitsBE]
  by_cases hn : n = 0
  · simp [hn]
  · rw [if_neg hn]
    simp only [ne_eq, List.reverse_eq_nil_iff]
    rw [decDigitsLE_eq_digits]
    exact Nat.digits_ne_nil_iff_ne_zero.mpr hn

theorem digitsBE_len_le (n k : ℕ) (hk : 0 < k) (hn : n < 10 ^ k) :
    (digitsBE n).length ≤ k := by
  rw [digitsBE]
  by_cases h0 : n = 0
  · simp [h0]; omega
  · rw [if_neg h0, List.length_reverse, decDigitsLE_eq_digits]
    by_contra hlen
    have h1 : 10 ^ (Nat.digits 10 n).length ≤ 10 * n :=
      Nat.base_pow_length_digits_le 10 n (by norm_num) h0
    have h2 : (10:ℕ) ^ (k + 1) ≤ 10 ^ (Nat.digits 10 n).length :=
      Nat.pow_le_pow_right (by norm_num) (by omega)
    have h3 : 10 * 10 ^ k ≤ 10 * n := by
      calc 10 * 10 ^ k = 10 ^ (k + 1) := by ring
        _ ≤ 10 ^ (Nat.digits 10 n).length := h2
        _ ≤ 10 * n := h1
    have h4 : 10 ^ k ≤ n := Nat.le_of_mul_le_mul_left h3 (by norm_num)
    omega

theorem valBE_cons (d : ℕ) (ds : List ℕ) :
    valBE (d :: ds) = d * 10 ^ ds.length + valBE ds := by
  rw [valBE, List.reverse_cons, Nat.ofDigits_append, Nat.ofDigits_singleton,
    List.length_reverse, valBE]
  ring

theorem valBE_lt_pow (ds : List ℕ) (h : ∀ d ∈ ds, d < 10) :
    valBE ds < 10 ^ ds.length := by
  induction ds with
  | nil => simp [valBE, Nat.ofDigits]
  | cons d ds ih =>
    rw [valBE_cons, List.length_cons]
    have hd : d < 10 := h d (List.mem_cons_self d ds)
    have hds := ih (fun x hx => h x (List.mem_cons_of_mem d hx))
    calc d * 10 ^ ds.length + valBE ds < d * 10 ^ ds.length + 10 ^ ds.length := by omega
      _ = (d + 1) * 10 ^ ds.length := by ring
      _ ≤ 10 * 10 ^ ds.length := Nat.mul_le_mul_right _ (by omega)
      _ = 10 ^ (ds.length + 1) := by ring

theorem valBE_replicate_zero (k : ℕ) (ds : List ℕ) :
    valBE (List.replicate k 0 ++ ds) = valBE ds := by
  induction k with
  | zero => simp
  | succ k ih =>
    rw [List.replicate_succ, List.cons_append, valBE_cons, ih]
    simp

/- ## Python code-point string comparison and tuple comparison -/

/-- Python string comparison: lexicographic on code points. -/
def listLtB : List Char → List Char → Bool
  | [], [] => false
  | [], _ :: _ => true
  | _ :: _, [] => false
  | a :: as, b :: bs =>
    if a.toNat < b.toNat then true
    else if b.toNat < a.toNat then false
    else listLtB as bs

/-- Python `<` on strings. -/
def strLtB (a b : String) : Bool := listLtB a.toList b.toList

/-- Python `<` on the `(int, str)` pairs returned by `sale_sort_key`. -/
def keyLtB (x y : ℕ × String) : Bool :=
  if x.1 < y.1 then true else if y.1 < x.1 then false else strLtB x.2 y.2

theorem toNat_digitChar (d : ℕ) (hd : d < 10) : (digitChar d).toNat = 48 + d := by
  interval_cases d <;> decide

theorem listLtB_digits_iff (ds : List ℕ) :
    ∀ es : List ℕ, ds.length = es.length → (∀ d ∈ ds, d < 10) → (∀ e ∈ es, e < 10) →
      (listLtB (ds.map digitChar) (es.map digitChar) = true ↔ valBE ds < valBE es) := by
  induction ds with
  | nil =>
    intro es hlen _ _
    match es with
    | [] => simp [listLtB]
  | cons d ds ih =>
    intro es hlen hds hes
    match es with
    | e :: es =>
      have hd : d < 10 := hds d (List.mem_cons_self d ds)
      have he : e < 10 := hes e (List.mem_cons_self e es)
      have hlen' : ds.length = es.length := by simpa using hlen
      have hvd := valBE_lt_pow ds (fun x hx => hds x (List.mem_cons_of_mem d hx))
      have hve := valBE_lt_pow es (fun x hx => hes x (List.mem_cons_of_mem e hx))
      rw [List.map_cons, List.map_cons, valBE_cons, valBE_cons]
      rcases Nat.lt_trichotomy d e with hlt | heq | hgt
      · have hchar : (digitChar d).toNat < (digitChar e).toNat := by
          rw [toNat_digitChar d hd, toNat_digitChar e he]; omega
        rw [listLtB, if_pos hchar]
        have : d * 10 ^ ds.length + valBE ds < e * 10 ^ es.length + valBE es := by
          calc d * 10 ^ ds.length + valBE ds < (d + 1) * 10 ^ ds.length := by
                rw [add_one_mul]; omega
            _ ≤ e * 10 ^ ds.length := Nat.mul_le_mul_right _ (by omega)
            _ = e * 10 ^ es.length := by rw [hlen']
            _ ≤ e * 10 ^ es.length + valBE es := Nat.le_add_right _ _
        simp [this]
      · subst heq
        have hchar : ¬ (digitChar d).toNat < (digitChar d).toNat := lt_irrefl _
        rw [listLtB, if_neg hchar, if_neg hchar]
        rw [ih es hlen' (fun x hx => hds x (List.mem_cons_of_mem d hx))
          (fun x hx => hes x (List.mem_cons_of_mem d hx))]
        rw [hlen']
        omega
      · have hchar : ¬ (digitChar d).toNat < (digitChar e).toNat := by
          rw [toNat_digitChar d hd, toNat_digitChar e he]; omega
        have hchar2 : (digitChar e).toNat < (digitChar d).toNat := by
          rw [toNat_digitChar d hd, toNat_digitChar e he]; omega
        rw [listLtB, if_neg hchar, if_pos hchar2]
        have : e * 10 ^ es.length + valBE es < d * 10 ^ ds.length + valBE ds := by
          calc e * 10 ^ es.length + valBE es < (e + 1) * 10 ^ es.length := by
                rw [add_one_mul]; omega
            _ ≤ d * 10 ^ es.length := Nat.mul_le_mul_right _ (by omega)
            _ = d * 10 ^ ds.length := by rw [hlen']
            _ ≤ d * 10 ^ ds.length + valBE ds := Nat.le_add_right _ _
        constructor
        · intro h; exact absurd h (by simp)
        · omega

/- ## computeSales.py : `sale_sort_key` -/

/-- Python whitespace (ASCII): the characters stripped/split by `strip`,
`split` and accepted around an `int()` literal. -/
def pyIsSpace (c : Char) : Bool :=
  c = ' ' || c = '\t' || c = '\n' || c = '\x0b' || c = '\x0c' || c = '\r'

/-- Python `str.strip()` on a character list. -/
def pyStripChars (cs : List Char) : List Char :=
  ((cs.dropWhile pyIsSpace).reverse.dropWhile pyIsSpace).reverse

/-- Value of one ASCII decimal digit character. -/
def decDigitVal (c : Char) : Option ℕ :=
  if '0' ≤ c ∧ c ≤ '9' then some (c.toNat - 48) else none

/-- Digits after the first one of an `int()` literal: decimal digits with
single underscores allowed between digits. -/
def intLitDigitsGo : List Char → Option (List ℕ)
  | [] => some []
  | '_' :: [] => none
  | '_' :: c :: cs =>
    match decDigitVal c with
    | some d => (intLitDigitsGo cs).map (fun ds => d :: ds)
    | none => none
  | c :: cs =>
    match decDigitVal c with
    | some d => (intLitDigitsGo cs).map (fun ds => d :: ds)
    | none => none

/-- Digit sequence of an `int()` literal: must start with a digit. -/
def pyIntLit (cs : List Char) : Option (List ℕ) :=
  match cs with
  | [] => none
  | c :: rest =>
    match decDigitVal c with
    | some d => (intLitDigitsGo rest).map (fun ds => d :: ds)
    | none => none

/-- Python `int(s)` on a string: strip surrounding whitespace, optional sign,
then a nonempty ASCII decimal digit sequence (underscores between digits). -/
def pyInt (s : String) : Option ℤ :=
  match pyStripChars s.toList with
  | '-' :: rest => (pyIntLit rest).map (fun ds => -(valBE ds : ℤ))
  | '+' :: rest => (pyIntLit rest).map (fun ds => (valBE ds : ℤ))
  | rest => (pyIntLit rest).map (fun ds => (valBE ds : ℤ))

/-- The char list of `f"{n:012d}"`: sign, then zeros padding the total width
to 12, then the decimal digits. -/
def zeroPad12L (n : ℤ) : List Char :=
  let sign : List Char := if n < 0 then ['-'] else []
  let ds : List Char := (digitsBE n.natAbs).map digitChar
  sign ++ List.replicate (12 - (sign.length + ds.length)) '0' ++ ds

/-- `f"{n:012d}"` as a string. -/
def zeroPad12 (n : ℤ) : String := String.mk (zeroPad12L n)

/-- `sale_sort_key` from computeSales.py: `(0, f"{int(sale_id):012d}")` when
`int(sale_id)` succeeds, else `(1, sale_id)`. -/
def sale_sort_key (sale_id : String) : ℕ × String :=
  match pyInt sale_id with
  | some n => (0, zeroPad12 n)
  | none => (1, sale_id)

theorem zeroPad12L_nonneg (m : ℤ) (hm : 0 ≤ m) :
    zeroPad12L m =
      (List.replicate (12 - (digitsBE m.natAbs).length) 0 ++ digitsBE m.natAbs).map digitChar := by
  rw [zeroPad12L]
  rw [if_neg (by omega : ¬ m < 0)]
  simp only [List.nil_append, List.length_nil, List.length_map, List.map_append,
    List.map_replicate, Nat.zero_add]
  rfl

theorem zeroPad12_strLt (m n : ℤ) (hm : 0 ≤ m) (hmn : m < n) (hn : n < 10 ^ 12) :
    strLtB (zeroPad12 m) (zeroPad12 n) = true := by
  have hmnat : m.natAbs < 10 ^ 12 := by
    have h1 : (m.natAbs : ℤ) = m := Int.natAbs_of_nonneg hm
    have : (m.natAbs : ℤ) < (10:ℤ) ^ 12 := by omega
    exact_mod_cast this
  have hnnat : n.natAbs < 10 ^ 12 := by
    have h1 : (n.natAbs : ℤ) = n := Int.natAbs_of_nonneg (by omega)
    have : (n.natAbs : ℤ) < (10:ℤ) ^ 12 := by omega
    exact_mod_cast this
  have hmn' : m.natAbs < n.natAbs := by omega
  have hLm : (digitsBE m.natAbs).length ≤ 12 := digitsBE_len_le _ 12 (by norm_num) hmnat
  have hLn : (digitsBE n.natAbs).length ≤ 12 := digitsBE_len_le _ 12 (by norm_num) hnnat
  have key := listLtB_digits_iff
    (List.replicate (12 - (digitsBE m.natAbs).length) 0 ++ digitsBE m.natAbs)
    (List.replicate (12 - (digitsBE n.natAbs).length) 0 ++ digitsBE n.natAbs)
    (by
      simp only [List.length_append, List.length_replicate]
      omega)
    (by
      intro d hd
      rcases List.mem_append.mp hd with h | h
      · have := List.eq_of_mem_replicate h; omega
      · exact digitsBE_lt _ d h)
    (by
      intro d hd
      rcases List.mem_append.mp hd with h | h
      · have := List.eq_of_mem_replicate h; omega
      · exact digitsBE_lt _ d h)
  rw [valBE_replicate_zero, valBE_replicate_zero, digitsBE_val, digitsBE_val] at key
  have hlt := key.mpr hmn'
  show listLtB (zeroPad12L m) (zeroPad12L n) = true
  rw [zeroPad12L_nonneg m hm, zeroPad12L_nonneg n (by omega)]
  exact hlt

/-- C3 counterexample: the claim says integer-literal identifiers are ordered
by numeric value for all integers including negatives, but the report's sort
places SALE_ID "-5" before SALE_ID "-10" although -10 < -5. -/
theorem sale_sort_key_negatives_misordered :
    pyInt "-5" = some (-5) ∧ pyInt "-10" = some (-10) ∧ (-10 : ℤ) < (-5 : ℤ) ∧
    keyLtB (sale_sort_key "-5") (sale_sort_key "-10") = true := by
  refine ⟨by decide, by decide, by decide, by decide⟩

/-- C3 (amended): report groups are sorted by `sale_sort_key`; identifiers that
are integer literals precede all others; non-integer identifiers are ordered
lexically by code points; and integer-literal identifiers are ordered by their
numeric value whenever the values are nonnegative and below 10^12 (negative
values sort by their zero-padded string form, reversing their numeric order,
and values of 13 or more digits compare as plain strings). -/
theorem sale_sort_key_order (a b : String) :
    (∀ m : ℤ, pyInt a = some m → pyInt b = none →
      keyLtB (sale_sort_key a) (sale_sort_key b) = true) ∧
    (pyInt a = none → pyInt b = none →
      keyLtB (sale_sort_key a) (sale_sort_key b) = strLtB a b) ∧
    (∀ m n : ℤ, pyInt a = some m → pyInt b = some n →
      0 ≤ m → m < n → n < 10 ^ 12 →
      keyLtB (sale_sort_key a) (sale_sort_key b) = true) := by
  refine ⟨?_, ?_, ?_⟩
  · intro m ha hb
    simp [sale_sort_key, ha, hb, keyLtB]
  · intro ha hb
    simp [sale_sort_key, ha, hb, keyLtB]
  · intro m n ha hb hm hmn hn
    simp only [sale_sort_key, ha, hb, keyLtB, lt_irrefl, if_false]
    exact zeroPad12_strLt m n hm hmn hn

/-- Witness for C3's amended theorem at concrete identifiers: "5" before the
non-numeric "x", "b" vs "x" compared lexically, and "5" before "10". -/
theorem sale_sort_key_order_witness :
    keyLtB (sale_sort_key "5") (sale_sort_key "x") = true ∧
    keyLtB (sale_sort_key "b") (sale_sort_key "x") = strLtB "b" "x" ∧
    keyLtB (sale_sort_key "5") (sale_sort_key "10") = true :=
  ⟨(sale_sort_key_order "5" "x").1 5 (by decide) (by decide),
   (sale_sort_key_order "b" "x").2.1 (by decide) (by decide),
   (sale_sort_key_order "5" "10").2.2 5 10 (by decide) (by decide) (by decide) (by decide)
     (by decide)⟩

/- ## JSON values and Python builtins used by computeSales.py -/

/-- JSON-decoded Python values. Numbers carry the exact rational the JSON
text denotes; the int/float distinction is not tracked. -/
inductive JValue where
  | jnull : JValue
  | jbool : Bool → JValue
  | jnum : ℚ → JValue
  | jstr : String → JValue
  | jarr : List JValue → JValue
  | jobj : List (String × JValue) → JValue

/-- `d.get(key, dflt)` on a JSON object; a stored JSON null and a missing key
both behave as Python `None`, which the model writes `jnull`. -/
def jGetD (fields : List (String × JValue)) (key : String) (dflt : JValue) : JValue :=
  match fields.lookup key with
  | some v => v
  | none => dflt

/-- Python truthiness of a JSON-decoded value. -/
def pyTruthy : JValue → Bool
  | .jnull => false
  | .jbool b => b
  | .jnum q => q != 0
  | .jstr s => s != ""
  | .jarr xs => !xs.isEmpty
  | .jobj fs => !fs.isEmpty

/-- `v is None` for a JSON-decoded value. -/
def isJNull : JValue → Bool
  | .jnull => true
  | _ => false

/-- Multiplicity of `p ≥ 2` in `n` (fuel-bounded structural recursion). -/
def pMultFuel : ℕ → ℕ → ℕ → ℕ
  | 0, _, _ => 0
  | fuel + 1, p, n => if 2 ≤ p ∧ n ≠ 0 ∧ p ∣ n then pMultFuel fuel p (n / p) + 1 else 0

/-- Python `str` of an integer. -/
def intRepr (i : ℤ) : String :=
  String.mk ((if i < 0 then ['-'] else []) ++ (digitsBE i.natAbs).map digitChar)

/-- Python `str` of a JSON number: integral values print like Python ints;
a value with denominator 2^a·5^b prints as its exact terminating decimal
(which is how the repr of a float decoded from such a JSON literal prints);
other rationals (never produced by JSON decoding) print as num/den. -/
def ratRepr (q : ℚ) : String :=
  if q.den = 1 then intRepr q.num
  else
    let k := max (pMultFuel q.den 2 q.den) (pMultFuel q.den 5 q.den)
    if q.den ∣ 10 ^ k then
      let scaled : ℕ := q.num.natAbs * (10 ^ k / q.den)
      let ds : List Char := (digitsBE scaled).map digitChar
      let ds : List Char := List.replicate (k + 1 - ds.length) '0' ++ ds
      String.mk ((if q.num < 0 then ['-'] else []) ++
        ds.take (ds.length - k) ++ '.' :: ds.drop (ds.length - k))
    else intRepr q.num ++ "/" ++ natRepr q.den

mutual

/-- Python `repr` of a JSON-decoded value (string quoting without escapes). -/
def pyRepr : JValue → String
  | .jnull => "None"
  | .jbool b => if b then "True" else "False"
  | .jnum q => ratRepr q
  | .jstr s => "'" ++ s ++ "'"
  | .jarr xs => "[" ++ String.intercalate ", " (pyReprList xs) ++ "]"
  | .jobj fs => "\x7b" ++ String.intercalate ", " (pyReprFields fs) ++ "\x7d"

def pyReprList : List JValue → List String
  | [] => []
  | v :: vs => pyRepr v :: pyReprList vs

def pyReprFields : List (String × JValue) → List String
  | [] => []
  | (k, v) :: fs => ("'" ++ k ++ "': " ++ pyRepr v) :: pyReprFields fs

end

/-- Python `str` of a JSON-decoded value. -/
def pyStr (v : JValue) : String :=
  match v with
  | .jstr s => s
  | _ => pyRepr v

/-- Split at the first character passing `test`: (before, rest after it). -/
def splitAtChar (test : Char → Bool) : List Char → List Char × Option (List Char)
  | [] => ([], none)
  | c :: cs =>
    if test c then ([], some cs)
    else
      let r := splitAtChar test cs
      (c :: r.1, r.2)

/-- Possibly-empty digit group with underscores between digits. -/
def optDigits : List Char → Option (List ℕ)
  | [] => some []
  | cs => pyIntLit cs

/-- Python float literal, already stripped: optional sign, digit groups with
underscores, optional decimal point, optional exponent. The IEEE special
forms inf/nan fall outside the rational model and parse as none. -/
def pyFloatStr (cs0 : List Char) : Option ℚ :=
  let sp : Bool × List Char :=
    match cs0 with
    | '-' :: rest => (true, rest)
    | '+' :: rest => (false, rest)
    | rest => (false, rest)
  let me := splitAtChar (fun c => c == 'e' || c == 'E') sp.2
  let ifp := splitAtChar (fun c => c == '.') me.1
  let fpcs : List Char := match ifp.2 with | none => [] | some l => l
  match optDigits ifp.1, optDigits fpcs with
  | some ip, some fp =>
    if ip.isEmpty && fp.isEmpty then none
    else
      let mantVal : ℚ := (valBE ip : ℚ) + (valBE fp : ℚ) / ((10 : ℚ) ^ fp.length)
      let expVal : Option ℤ :=
        match me.2 with
        | none => some 0
        | some ('-' :: rest) => (pyIntLit rest).map (fun ds => -(valBE ds : ℤ))
        | some ('+' :: rest) => (pyIntLit rest).map (fun ds => (valBE ds : ℤ))
        | some rest => (pyIntLit rest).map (fun ds => (valBE ds : ℤ))
      match expVal with
      | some e => some ((if sp.1 then -mantVal else mantVal) * (10 : ℚ) ^ e)
      | none => none
  | _, _ => none

/-- Python `float(x)` on a JSON-decoded value. -/
def pyFloat : JValue → Option ℚ
  | .jnum q => some q
  | .jbool b => some (if b then 1 else 0)
  | .jstr s => pyFloatStr (pyStripChars s.toList)
  | _ => none

/- ## computeSales.py : `parse_sales` -/

/-- `SaleItem` from computeSales.py: one product line inside a sale. -/
structure SaleItem where
  product : String
  quantity : ℚ
  unit_price : ℚ
deriving DecidableEq

/-- `line_total`: quantity * unit_price (quantity may be negative). -/
def SaleItem.line_total (it : SaleItem) : ℚ := it.quantity * it.unit_price

/-- `SaleGroup` from computeSales.py: items grouped by SALE_ID. -/
structure SaleGroup where
  sale_id : String
  sale_date : String
  items : List SaleItem
deriving DecidableEq

/-- `subtotal`: sum of all line totals for this sale. -/
def SaleGroup.subtotal (g : SaleGroup) : ℚ := (g.items.map SaleItem.line_total).sum

/-- The running state of `parse_sales`: the insertion-ordered dict of groups,
the grand total, and the skipped-row counter. -/
structure SalesAcc where
  grouped : List (String × SaleGroup)
  grand_total : ℚ
  error_count : ℕ
deriving DecidableEq

/-- In-place update of the value stored at `key` in an insertion-ordered dict. -/
def updateGroup : List (String × SaleGroup) → String → (SaleGroup → SaleGroup) →
    List (String × SaleGroup)
  | [], _, _ => []
  | (k, g) :: rest, key, f =>
    if k = key then (k, f g) :: rest else (k, g) :: updateGroup rest key f

/-- One skipped row: `error_count += 1`. -/
def SalesAcc.addError (acc : SalesAcc) : SalesAcc :=
  { acc with error_count := acc.error_count + 1 }

/-- One accepted row, as the loop body of `parse_sales` handles it: create the
group keyed by `str(sale_id)` on first sight (with `str(sale_date)`), let the
first row with an empty stored date and a truthy date value set the date,
append the item, and add its line total to the grand total. -/
def SalesAcc.addItem (acc : SalesAcc) (key : String) (saleDate : JValue)
    (item : SaleItem) : SalesAcc :=
  let grouped1 :=
    if (acc.grouped.lookup key).isSome then acc.grouped
    else acc.grouped ++ [(key, ⟨key, pyStr saleDate, []⟩)]
  let grouped2 := updateGroup grouped1 key (fun g =>
    if (g.sale_date == "") && pyTruthy saleDate then { g with sale_date := pyStr saleDate }
    else g)
  let grouped3 := updateGroup grouped2 key (fun g => { g with items := g.items ++ [item] })
  { grouped := grouped3, grand_total := acc.grand_total + item.line_total,
    error_count := acc.error_count }

/-- The loop body of `parse_sales` on one sales row: the validation sequence
of computeSales.py lines 125-178. -/
def processRow (prices : List (String × ℚ)) (acc : SalesAcc) (row : JValue) : SalesAcc :=
  match row with
  | .jobj fields =>
    let sale_id := jGetD fields "SALE_ID" JValue.jnull
    let sale_date := jGetD fields "SALE_Date" (JValue.jstr "")
    let product := jGetD fields "Product" JValue.jnull
    let quantity := jGetD fields "Quantity" JValue.jnull
    if isJNull sale_id then acc.addError
    else
      match product with
      | JValue.jstr p =>
        if pyStripChars p.toList = [] then acc.addError
        else
          match prices.lookup p with
          | some unit_price =>
            match pyFloat quantity with
            | some qty => acc.addItem (pyStr sale_id) sale_date ⟨p, qty, unit_price⟩
            | none => acc.addError
          | none => acc.addError
      | _ => acc.addError
  | _ => acc.addError

/-- `parse_sales` from computeSales.py: fold the loop body over the rows;
a non-list sales record reports one error and nothing else. -/
def parse_sales (sales_data : JValue) (prices : List (String × ℚ)) : SalesAcc :=
  match sales_data with
  | .jarr rows => rows.foldl (processRow prices) ⟨[], 0, 0⟩
  | _ => ⟨[], 0, 1⟩

/-- Specification-side row acceptance: `some (key, raw date value, item)`
exactly when the validation sequence of `parse_sales` accepts the row. -/
def rowAccept (prices : List (String × ℚ)) (row : JValue) :
    Option (String × JValue × SaleItem) :=
  match row with
  | .jobj fields =>
    let sale_id := jGetD fields "SALE_ID" JValue.jnull
    let sale_date := jGetD fields "SALE_Date" (JValue.jstr "")
    let product := jGetD fields "Product" JValue.jnull
    let quantity := jGetD fields "Quantity" JValue.jnull
    if isJNull sale_id then none
    else
      match product with
      | JValue.jstr p =>
        if pyStripChars p.toList = [] then none
        else
          match prices.lookup p with
          | some unit_price =>
            match pyFloat quantity with
            | some qty => some (pyStr sale_id, sale_date, ⟨p, qty, unit_price⟩)
            | none => none
          | none => none
      | _ => none
  | _ => none

/-- The accepted rows of a sales record, in input order. -/
def acceptedRows (prices : List (String × ℚ)) (rows : List JValue) :
    List (String × JValue × SaleItem) :=
  rows.filterMap (rowAccept prices)

/-- The date-update step of the loop body on one raw SALE_Date value. -/
def dateUpd (cur : String) (v : JValue) : String :=
  if (cur == "") && pyTruthy v then pyStr v else cur

/-- The date a group records after seeing its rows' raw date values in order:
created from `str` of the first, then updated by `dateUpd`. -/
def groupDateRaw : List JValue → String
  | [] => ""
  | d :: ds => ds.foldl dateUpd (pyStr d)

/-- The group `parse_sales` should hold at key `k`: its accepted rows, their
dates folded by `dateUpd`, their items in input order. -/
def groupSpec (prices : List (String × ℚ)) (rows : List JValue) (k : String) :
    Option SaleGroup :=
  match (acceptedRows prices rows).filter (fun e => e.1 == k) with
  | [] => none
  | e :: es => some ⟨k, groupDateRaw ((e :: es).map (fun x => x.2.1)),
      (e :: es).map (fun x => x.2.2)⟩

/-- The Product value of a sales row (`None` when absent or not an object). -/
def productOf : JValue → JValue
  | .jobj fields => jGetD fields "Product" JValue.jnull
  | _ => JValue.jnull

theorem processRow_eq (prices : List (String × ℚ)) (acc : SalesAcc) (row : JValue) :
    processRow prices acc row =
      match rowAccept prices row with
      | none => acc.addError
      | some e => acc.addItem e.1 e.2.1 e.2.2 := by
  cases row with
  | jobj fields =>
    simp only [processRow, rowAccept]
    by_cases h1 : isJNull (jGetD fields "SALE_ID" JValue.jnull)
    · simp [h1]
    · simp only [Bool.not_eq_true] at h1
      simp only [h1, Bool.false_eq_true, if_false]
      cases hp : jGetD fields "Product" JValue.jnull with
      | jstr p =>
        dsimp only
        by_cases h2 : pyStripChars p.toList = []
        · rw [if_pos h2, if_pos h2]
        · rw [if_neg h2, if_neg h2]
          cases hl : prices.lookup p with
          | some unit_price =>
            cases hf : pyFloat (jGetD fields "Quantity" JValue.jnull) with
            | some qty => rfl
            | none => rfl
          | none => rfl
      | jnull => rfl
      | jbool b => rfl
      | jnum q => rfl
      | jarr xs => rfl
      | jobj fs => rfl
  | jnull => rfl
  | jbool b => rfl
  | jnum q => rfl
  | jstr s => rfl
  | jarr xs => rfl

theorem lookup_updateGroup (m : List (String × SaleGroup)) (key k : String)
    (f : SaleGroup → SaleGroup) :
    (updateGroup m key f).lookup k =
      if k = key then (m.lookup k).map f else m.lookup k := by
  induction m with
  | nil =>
    simp only [updateGroup, List.lookup_nil, Option.map_none']
    split <;> rfl
  | cons e rest ih =>
    obtain ⟨k', g⟩ := e
    by_cases hk' : k' = key
    · subst hk'
      by_cases hkk : k = k'
      · subst hkk
        have hb : (k == k) = true := by simp
        simp [updateGroup, List.lookup, hb]
      · have hb : (k == k') = false := by simp [hkk]
        simp [updateGroup, List.lookup, hb, hkk]
    · by_cases hkk : k = k'
      · subst hkk
        have hb : (k == k) = true := by simp
        have hne : ¬ k = key := fun h => hk' h
        simp [updateGroup, hk', List.lookup, hb, hne]
      · have hb : (k == k') = false := by simp [hkk]
        simp [updateGroup, hk', List.lookup, hb, ih]

theorem lookup_append_one (m : List (String × SaleGroup)) (key k : String) (g : SaleGroup) :
    (m ++ [(key, g)]).lookup k =
      match m.lookup k with
      | some v => some v
      | none => if k = key then some g else none := by
  induction m with
  | nil =>
    by_cases hk : k = key
    · subst hk
      have hb : (k == k) = true := by simp
      simp [List.lookup, hb]
    · have hb : (k == key) = false := by simp [hk]
      simp [List.lookup, hb, hk]
  | cons e rest ih =>
    obtain ⟨k', v⟩ := e
    by_cases hkk : k = k'
    · subst hkk
      have hb : (k == k) = true := by simp
      simp [List.lookup, hb]
    · have hb : (k == k') = false := by simp [hkk]
      simp only [List.cons_append, List.lookup, hb]
      exact ih

theorem groupDateRaw_append (ds : List JValue) (hne : ds ≠ []) (v : JValue) :
    groupDateRaw (ds ++ [v]) = dateUpd (groupDateRaw ds) v := by
  cases ds with
  | nil => exact absurd rfl hne
  | cons d ds => simp [groupDateRaw, List.foldl_append]

theorem lookup_addItem (acc : SalesAcc) (k₀ : String) (d₀ : JValue) (it₀ : SaleItem)
    (k : String) :
    (acc.addItem k₀ d₀ it₀).grouped.lookup k =
      if k = k₀ then
        match acc.grouped.lookup k₀ with
        | none => some ⟨k₀, pyStr d₀, [it₀]⟩
        | some g =>
          some { g with sale_date := dateUpd g.sale_date d₀, items := g.items ++ [it₀] }
      else acc.grouped.lookup k := by
  simp only [SalesAcc.addItem]
  cases hl : acc.grouped.lookup k₀ with
  | some g =>
    simp only [hl, Option.isSome_some, if_pos]
    rw [lookup_updateGroup, lookup_updateGroup]
    by_cases hk : k = k₀
    · subst hk
      rw [if_pos rfl, if_pos rfl, hl]
      simp only [Option.map_some']
      congr 1
      by_cases hc : ((g.sale_date == "") && pyTruthy d₀) = true
      · simp [dateUpd, hc]
      · simp [dateUpd, hc]
    · rw [if_neg hk, if_neg hk, if_neg hk]
  | none =>
    simp only [hl, Option.isSome_none, Bool.false_eq_true, if_false]
    rw [lookup_updateGroup, lookup_updateGroup]
    by_cases hk : k = k₀
    · subst hk
      rw [if_pos rfl, if_pos rfl, lookup_append_one, hl]
      rw [if_pos rfl]
      simp only [Option.map_some']
      by_cases hc : (((⟨k, pyStr d₀, []⟩ : SaleGroup).sale_date == "") && pyTruthy d₀) = true
      · simp [hc]
      · simp [hc]
    · rw [if_neg hk, if_neg hk, lookup_append_one]
      cases acc.grouped.lookup k with
      | some v => simp [hk]
      | none => simp [hk]

theorem parse_fold_master (prices : List (String × ℚ)) (rows : List JValue) :
    (rows.foldl (processRow prices) ⟨[], 0, 0⟩).grand_total
        = ((acceptedRows prices rows).map (fun e => SaleItem.line_total e.2.2)).sum ∧
    (rows.foldl (processRow prices) ⟨[], 0, 0⟩).error_count
        = (rows.filter (fun r => (rowAccept prices r).isNone)).length ∧
    ∀ k, (rows.foldl (processRow prices) ⟨[], 0, 0⟩).grouped.lookup k
        = groupSpec prices rows k := by
  induction rows using List.reverseRecOn with
  | nil => exact ⟨rfl, rfl, fun k => rfl⟩
  | append_singleton rows r ih =>
    obtain ⟨ihT, ihE, ihG⟩ := ih
    rw [List.foldl_append, List.foldl_cons, List.foldl_nil, processRow_eq]
    cases hacc : rowAccept prices r with
    | none =>
      have haccL : acceptedRows prices (rows ++ [r]) = acceptedRows prices rows := by
        simp [acceptedRows, List.filterMap_append, hacc]
      refine ⟨?_, ?_, ?_⟩
      · simpa [SalesAcc.addError, haccL] using ihT
      · have hf : (rows ++ [r]).filter (fun x => (rowAccept prices x).isNone)
            = rows.filter (fun x => (rowAccept prices x).isNone) ++ [r] := by
          simp [List.filter_append, hacc]
        rw [hf]
        simp [SalesAcc.addError, ihE]
      · intro k
        show (List.foldl (processRow prices) ⟨[], 0, 0⟩ rows).grouped.lookup k
            = groupSpec prices (rows ++ [r]) k
        rw [ihG k]
        simp only [groupSpec, haccL]
    | some e =>
      obtain ⟨k₀, d₀, it₀⟩ := e
      have haccL : acceptedRows prices (rows ++ [r])
          = acceptedRows prices rows ++ [(k₀, d₀, it₀)] := by
        simp [acceptedRows, List.filterMap_append, hacc]
      refine ⟨?_, ?_, ?_⟩
      · show ((List.foldl (processRow prices) ⟨[], 0, 0⟩ rows).addItem k₀ d₀ it₀).grand_total = _
        simp only [SalesAcc.addItem]
        rw [haccL]
        simp [ihT]
      · show ((List.foldl (processRow prices) ⟨[], 0, 0⟩ rows).addItem k₀ d₀ it₀).error_count = _
        have hf : (rows ++ [r]).filter (fun x => (rowAccept prices x).isNone)
            = rows.filter (fun x => (rowAccept prices x).isNone) := by
          simp [List.filter_append, hacc]
        rw [hf]
        simp only [SalesAcc.addItem]
        exact ihE
      · intro k
        rw [lookup_addItem]
        by_cases hk : k = k₀
        · subst hk
          rw [if_pos rfl, ihG k]
          have hkk : (k == k) = true := by simp
          simp only [groupSpec, haccL, List.filter_append, List.filter_cons,
            List.filter_nil, hkk, if_pos]
          cases hfil : (acceptedRows prices rows).filter (fun e => e.1 == k) with
          | nil =>
            simp [groupDateRaw]
          | cons e0 es0 =>
            have hmapne : ((e0 :: es0).map (fun x : String × JValue × SaleItem => x.2.1)) ≠ [] := by
              simp
            simp only [List.cons_append, List.map_cons, List.map_append, List.map_nil]
            have hshape : e0.2.1 :: (List.map (fun x : String × JValue × SaleItem => x.2.1) es0
                ++ [d₀])
                = (List.map (fun x : String × JValue × SaleItem => x.2.1) (e0 :: es0)) ++ [d₀] := by
              simp
            rw [hshape, groupDateRaw_append _ hmapne]
            simp
        · rw [if_neg hk, ihG k]
          have hkk : ((k₀, d₀, it₀).1 == k) = false := by
            simp only [beq_eq_false_iff_ne, ne_eq]
            exact fun h => hk h.symm
          simp [groupSpec, haccL, List.filter_append, hkk]

theorem rowAccept_unknown_product (prices : List (String × ℚ)) (r : JValue)
    (h : ∀ p : String, productOf r = JValue.jstr p → prices.lookup p = none) :
    rowAccept prices r = none := by
  cases r with
  | jobj fields =>
    simp only [productOf] at h
    simp only [rowAccept]
    by_cases h1 : isJNull (jGetD fields "SALE_ID" JValue.jnull)
    · simp [h1]
    · simp only [Bool.not_eq_true] at h1
      simp only [h1, Bool.false_eq_true, if_false]
      cases hp : jGetD fields "Product" JValue.jnull with
      | jstr p =>
        dsimp only
        by_cases h2 : pyStripChars p.toList = []
        · rw [if_pos h2]
        · rw [if_neg h2, h p hp]
      | jnull => rfl
      | jbool b => rfl
      | jnum q => rfl
      | jarr xs => rfl
      | jobj fs => rfl
  | jnull => rfl
  | jbool b => rfl
  | jnum q => rfl
  | jstr s => rfl
  | jarr xs => rfl

/-- C1: the grand total of `parse_sales` equals the sum of quantity times unit
price over exactly the accepted rows; the error counter counts exactly the
rejected rows; a sales row whose Product value is not a key of the catalog is
never accepted; and every group's items, hence its subtotal, come only from
accepted rows with that key. -/
theorem parse_sales_totals_spec (prices : List (String × ℚ)) (rows : List JValue) :
    (parse_sales (JValue.jarr rows) prices).grand_total
        = ((acceptedRows prices rows).map (fun e => SaleItem.line_total e.2.2)).sum ∧
    (parse_sales (JValue.jarr rows) prices).error_count
        = (rows.filter (fun r => (rowAccept prices r).isNone)).length ∧
    (∀ r ∈ rows, (∀ p : String, productOf r = JValue.jstr p → prices.lookup p = none) →
        rowAccept prices r = none) ∧
    ∀ k g, (parse_sales (JValue.jarr rows) prices).grouped.lookup k = some g →
      g.items = ((acceptedRows prices rows).filter (fun e => e.1 == k)).map (fun e => e.2.2)
      ∧ g.subtotal = (((acceptedRows prices rows).filter (fun e => e.1 == k)).map
          (fun e => SaleItem.line_total e.2.2)).sum := by
  obtain ⟨hT, hE, hG⟩ := parse_fold_master prices rows
  refine ⟨hT, hE, fun r _ h => rowAccept_unknown_product prices r h, ?_⟩
  intro k g hg
  rw [show parse_sales (JValue.jarr rows) prices
      = rows.foldl (processRow prices) ⟨[], 0, 0⟩ from rfl, hG k] at hg
  revert hg
  simp only [groupSpec]
  cases hfil : (acceptedRows prices rows).filter (fun e => e.1 == k) with
  | nil => intro h; cases h
  | cons e0 es0 =>
    intro h
    rw [Option.some.injEq] at h
    subst h
    refine ⟨rfl, ?_⟩
    show ((((e0 :: es0).map fun x => x.2.2).map SaleItem.line_total)).sum = _
    rw [List.map_map]
    rfl

/-- Concrete catalog for the C1 witness. -/
def c1Prices : List (String × ℚ) := [("Pen", 2)]

/-- A sales row the catalog accepts. -/
def c1RowPen : JValue :=
  JValue.jobj [("SALE_ID", JValue.jstr "A"), ("SALE_Date", JValue.jstr "2024-01-01"),
    ("Product", JValue.jstr "Pen"), ("Quantity", JValue.jnum 3)]

/-- A sales row naming a product the catalog does not know. -/
def c1RowGhost : JValue :=
  JValue.jobj [("SALE_ID", JValue.jstr "B"), ("Product", JValue.jstr "Ghost"),
    ("Quantity", JValue.jnum 1)]

/-- Witness for C1 at a concrete catalog and sales record: 3 Pens at price 2
give grand total 6, and the unknown-product row is the one skipped row. -/
theorem parse_sales_totals_spec_witness :
    (parse_sales (JValue.jarr [c1RowPen, c1RowGhost]) c1Prices).grand_total = 6 ∧
    (parse_sales (JValue.jarr [c1RowPen, c1RowGhost]) c1Prices).error_count = 1 ∧
    rowAccept c1Prices c1RowGhost = none := by
  obtain ⟨hT, hE, hU, hG⟩ := parse_sales_totals_spec c1Prices [c1RowPen, c1RowGhost]
  refine ⟨?_, ?_, ?_⟩
  · rw [hT]
    have hacc : acceptedRows c1Prices [c1RowPen, c1RowGhost]
        = [("A", JValue.jstr "2024-01-01", ⟨"Pen", 3, 2⟩)] := rfl
    rw [hacc]
    norm_num [SaleItem.line_total]
  · rw [hE]; decide
  · refine hU c1RowGhost (List.mem_cons_of_mem _ (List.mem_cons_self _ _)) ?_
    intro p hp
    have h' : JValue.jstr "Ghost" = JValue.jstr p := hp
    injection h' with h'
    subst h'
    decide

/-- First non-empty string in a list, or "" when there is none. -/
def firstNonEmpty : List String → String
  | [] => ""
  | s :: ss => if s = "" then firstNonEmpty ss else s

theorem foldl_dateUpd_strings (ds : List JValue) :
    ∀ cur : String, (∀ v ∈ ds, ∃ s : String, v = JValue.jstr s) →
      ds.foldl dateUpd cur = if cur = "" then firstNonEmpty (ds.map pyStr) else cur := by
  induction ds with
  | nil =>
    intro cur _
    by_cases hc : cur = "" <;> simp [hc, firstNonEmpty]
  | cons v ds ih =>
    intro cur hs
    obtain ⟨s, rfl⟩ := hs v (List.mem_cons_self v ds)
    have htail : ∀ w ∈ ds, ∃ t : String, w = JValue.jstr t :=
      fun w hw => hs w (List.mem_cons_of_mem _ hw)
    rw [List.foldl_cons, ih (dateUpd cur (JValue.jstr s)) htail]
    by_cases hc : cur = ""
    · subst hc
      by_cases hcs : s = ""
      · subst hcs
        simp [dateUpd, pyTruthy, pyStr, firstNonEmpty]
      · simp [dateUpd, pyTruthy, pyStr, hcs, firstNonEmpty]
    · simp [dateUpd, hc, (by simpa using hc : (cur == "") = false)]

theorem groupDateRaw_strings (ds : List JValue)
    (hs : ∀ v ∈ ds, ∃ s : String, v = JValue.jstr s) :
    groupDateRaw ds = firstNonEmpty (ds.map pyStr) := by
  cases ds with
  | nil => rfl
  | cons v ds =>
    obtain ⟨s, rfl⟩ := hs v (List.mem_cons_self v ds)
    have htail : ∀ w ∈ ds, ∃ t : String, w = JValue.jstr t :=
      fun w hw => hs w (List.mem_cons_of_mem _ hw)
    show ds.foldl dateUpd (pyStr (JValue.jstr s)) = _
    rw [foldl_dateUpd_strings ds (pyStr (JValue.jstr s)) htail]
    by_cases hcs : s = ""
    · subst hcs
      simp [pyStr, firstNonEmpty]
    · simp [pyStr, hcs, firstNonEmpty]

/-- C7: when the SALE_Date values of the accepted rows are text, the date a
group records is the first non-empty SALE_Date among its accepted rows in
input order; in particular an empty date never overwrites a recorded date and
a later non-empty date never replaces an earlier one. -/
theorem parse_sales_first_date (prices : List (String × ℚ)) (rows : List JValue)
    (hdates : ∀ e ∈ acceptedRows prices rows, ∃ s : String, e.2.1 = JValue.jstr s) :
    ∀ k g, (parse_sales (JValue.jarr rows) prices).grouped.lookup k = some g →
      g.sale_date = firstNonEmpty (((acceptedRows prices rows).filter
        (fun e => e.1 == k)).map (fun e => pyStr e.2.1)) := by
  obtain ⟨-, -, hG⟩ := parse_fold_master prices rows
  intro k g hg
  rw [show parse_sales (JValue.jarr rows) prices
      = rows.foldl (processRow prices) ⟨[], 0, 0⟩ from rfl, hG k] at hg
  revert hg
  simp only [groupSpec]
  cases hfil : (acceptedRows prices rows).filter (fun e => e.1 == k) with
  | nil => intro h; cases h
  | cons e0 es0 =>
    intro h
    rw [Option.some.injEq] at h
    subst h
    dsimp only
    rw [groupDateRaw_strings]
    · rw [List.map_map]; rfl
    · intro v hv
      rw [List.mem_map] at hv
      obtain ⟨e, he, rfl⟩ := hv
      exact hdates e (List.mem_of_mem_filter (hfil.symm ▸ he))

/-- Concrete catalog for the C7 witness. -/
def c7Prices : List (String × ℚ) := [("Pen", 2)]

/-- An accepted row whose SALE_Date is the empty string. -/
def c7RowEmptyDate : JValue :=
  JValue.jobj [("SALE_ID", JValue.jstr "A"), ("SALE_Date", JValue.jstr ""),
    ("Product", JValue.jstr "Pen"), ("Quantity", JValue.jnum 1)]

/-- A later accepted row of the same sale with a non-empty SALE_Date. -/
def c7RowDated : JValue :=
  JValue.jobj [("SALE_ID", JValue.jstr "A"), ("SALE_Date", JValue.jstr "2024-02-02"),
    ("Product", JValue.jstr "Pen"), ("Quantity", JValue.jnum 2)]

/-- Witness for C7: with an empty first date and a non-empty second date in
the same sale group, the recorded date is the later non-empty one, which is
the first non-empty date of the group. -/
theorem parse_sales_first_date_witness :
    (parse_sales (JValue.jarr [c7RowEmptyDate, c7RowDated]) c7Prices).grouped.lookup "A"
        = some ⟨"A", "2024-02-02", [⟨"Pen", 1, 2⟩, ⟨"Pen", 2, 2⟩]⟩ ∧
    (⟨"A", "2024-02-02", [⟨"Pen", 1, 2⟩, ⟨"Pen", 2, 2⟩]⟩ : SaleGroup).sale_date
        = firstNonEmpty (((acceptedRows c7Prices [c7RowEmptyDate, c7RowDated]).filter
            (fun e => e.1 == "A")).map (fun e => pyStr e.2.1)) := by
  have hacc : acceptedRows c7Prices [c7RowEmptyDate, c7RowDated]
      = [("A", JValue.jstr "", ⟨"Pen", 1, 2⟩), ("A", JValue.jstr "2024-02-02", ⟨"Pen", 2, 2⟩)] :=
    rfl
  have hlookup : (parse_sales (JValue.jarr [c7RowEmptyDate, c7RowDated]) c7Prices).grouped.lookup
      "A" = some ⟨"A", "2024-02-02", [⟨"Pen", 1, 2⟩, ⟨"Pen", 2, 2⟩]⟩ := rfl
  refine ⟨hlookup, ?_⟩
  refine parse_sales_first_date c7Prices [c7RowEmptyDate, c7RowDated] ?_ "A" _ hlookup
  intro e he
  rw [hacc] at he
  rcases List.mem_cons.mp he with h | h
  · subst h
    exact ⟨"", rfl⟩
  · rcases List.mem_cons.mp h with h2 | h2
    · subst h2
      exact ⟨"2024-02-02", rfl⟩
    · cases h2

/- ## computeSales.py : `build_price_catalog` and `main` -/

/-- Python dict assignment `prices[title] = price`: update in place, else append. -/
def dictInsert (m : List (String × ℚ)) (k : String) (v : ℚ) : List (String × ℚ) :=
  match m with
  | [] => [(k, v)]
  | (k', v') :: rest => if k' = k then (k, v) :: rest else (k', v') :: dictInsert rest k v

/-- The loop body of `build_price_catalog` on one catalogue entry. -/
def catalogStep (acc : List (String × ℚ)) (product : JValue) : List (String × ℚ) :=
  match product with
  | .jobj fields =>
    match jGetD fields "title" JValue.jnull with
    | JValue.jstr t =>
      if pyStripChars t.toList = [] then acc
      else
        match pyFloat (jGetD fields "price" JValue.jnull) with
        | some p => dictInsert acc t p
        | none => acc
    | _ => acc
  | _ => acc

/-- `build_price_catalog` from computeSales.py: fold catalogue entries into
the prices dict, skipping invalid ones; a non-list catalogue gives an empty
dict. -/
def build_price_catalog : JValue → List (String × ℚ)
  | .jarr xs => xs.foldl catalogStep []
  | _ => []

/-- `main` of computeSales.py with its effectful steps as parameters: the
arity check, the two `load_json_file` results (`none` models a missing or
unreadable file, which `load_json_file` reports as Python `None`), and
whether the results file can be appended to. Returns the process exit code
and the computed aggregation (`none` when the arguments were bad). -/
def compute_sales_main (argcOk : Bool) (catalogLoad salesLoad : Option JValue)
    (writeOk : Bool) : ℕ × Option SalesAcc :=
  if !argcOk then (2, none)
  else
    let catalog_data := match catalogLoad with | none => JValue.jarr [] | some v => v
    let sales_data := match salesLoad with | none => JValue.jarr [] | some v => v
    let prices := build_price_catalog catalog_data
    let acc := parse_sales sales_data prices
    ((if writeOk then 0 else 1), some acc)

/-- C4 counterexample: with both input files missing or unreadable (both
loads fail), the run still exits 0 — a missing or unreadable input file is
not a fatal condition in computeSales.py. -/
theorem compute_sales_missing_file_exit_zero :
    (compute_sales_main true none none true).1 = 0 := rfl

/-- C4 (amended): the exit code of the sales aggregator never depends on the
load results or on row-level validation: with good arguments it is 1 exactly
when the results file cannot be written and 0 otherwise, even when an input
file is missing or unreadable; a bad argument count exits 2. -/
theorem compute_sales_exit_spec (catalogLoad salesLoad : Option JValue) (writeOk : Bool) :
    (compute_sales_main true catalogLoad salesLoad writeOk).1 = (if writeOk then 0 else 1) ∧
    (compute_sales_main false catalogLoad salesLoad writeOk).1 = 2 :=
  ⟨rfl, rfl⟩

/- ## computeStatistics.py : `mode` -/

/-- One step of the frequency dict build: `freq[v] = freq.get(v, 0) + 1`. -/
def addCount (m : List (ℚ × ℕ)) (v : ℚ) : List (ℚ × ℕ) :=
  match m with
  | [] => [(v, 1)]
  | (w, c) :: rest => if w = v then (w, c + 1) :: rest else (w, c) :: addCount rest v

/-- The frequency dict of `mode`, in insertion order. -/
def freqOf (values : List ℚ) : List (ℚ × ℕ) := values.foldl addCount []

/-- The scan of `mode` over the dict items: the running maximal count and the
list of values tied for it. -/
def modeScan (m : List (ℚ × ℕ)) : ℕ × List ℚ :=
  m.foldl (fun st e =>
    if e.2 > st.1 then (e.2, [e.1])
    else if e.2 = st.1 then (st.1, st.2 ++ [e.1])
    else st) (0, [])

/-- Python `min` over a list of numbers (0 on [], where Python would raise;
`mode` only calls it on a non-empty list). -/
def listMin : List ℚ → ℚ
  | [] => 0
  | x :: xs => xs.foldl min x

/-- `mode` from computeStatistics.py: `None` when the maximal count is at
most 1, else the smallest value among those tied for the maximal count. -/
def mode (values : List ℚ) : Option ℚ :=
  let s := modeScan (freqOf values)
  if s.1 ≤ 1 then none else some (listMin s.2)

/-- The running maximum the scan of `mode` maintains. -/
def maxC (m : List (ℚ × ℕ)) : ℕ := m.foldl (fun a e => max a e.2) 0

theorem lookup_addCount (m : List (ℚ × ℕ)) (v w : ℚ) :
    (addCount m v).lookup w =
      if w = v then some (((m.lookup v).getD 0) + 1) else m.lookup w := by
  induction m with
  | nil =>
    by_cases hw : w = v
    · subst hw
      have hb : (w == w) = true := by simp
      simp [addCount, List.lookup, hb]
    · have hb : (w == v) = false := by simp [hw]
      simp [addCount, List.lookup, hb, hw]
  | cons e rest ih =>
    obtain ⟨u, c⟩ := e
    by_cases hu : u = v
    · subst hu
      by_cases hw : w = u
      · subst hw
        have hb : (w == w) = true := by simp
        simp [addCount, List.lookup, hb]
      · have hb : (w == u) = false := by simp [hw]
        simp [addCount, List.lookup, hb, hw]
    · by_cases hw : w = u
      · subst hw
        have hb : (w == w) = true := by simp
        have hwv : ¬ w = v := fun h => hu (h ▸ rfl)
        simp [addCount, hu, List.lookup, hb, hwv]
      · have hb : (w == u) = false := by simp [hw]
        have hb2 : (v == u) = false := by
          simp only [beq_eq_false_iff_ne, ne_eq]
          exact fun h => hu h.symm
        simp [addCount, hu, List.lookup, hb, hb2, ih]

theorem lookup_freqOf (l : List ℚ) :
    ∀ v, (freqOf l).lookup v = if v ∈ l then some (l.count v) else none := by
  induction l using List.reverseRecOn with
  | nil => intro v; simp [freqOf]
  | append_singleton l x ih =>
    intro v
    have hstep : freqOf (l ++ [x]) = addCount (freqOf l) x := by
      simp [freqOf, List.foldl_append]
    rw [hstep, lookup_addCount, ih x, ih v]
    by_cases hvx : v = x
    · subst hvx
      by_cases hvl : v ∈ l
      · simp [hvl, List.count_append]
      · simp [hvl, List.count_append, List.count_eq_zero.mpr hvl]
    · by_cases hvl : v ∈ l
      · simp [hvx, hvl, List.count_append, List.count_singleton', hvx]
      · have : ¬ v ∈ l ++ [x] := by
          simp [List.mem_append, hvl, hvx]
        simp [hvx, hvl, this]

theorem keys_addCount (m : List (ℚ × ℕ)) (v : ℚ) :
    (addCount m v).map Prod.fst = m.map Prod.fst ∨
    (addCount m v).map Prod.fst = m.map Prod.fst ++ [v] := by
  induction m with
  | nil => right; rfl
  | cons e rest ih =>
    obtain ⟨u, c⟩ := e
    by_cases hu : u = v
    · left; simp [addCount, hu]
    · rcases ih with h | h
      · left; simp [addCount, hu, h]
      · right; simp [addCount, hu, h]

theorem keys_addCount_mem (m : List (ℚ × ℕ)) (v : ℚ) (hv : v ∈ m.map Prod.fst) :
    (addCount m v).map Prod.fst = m.map Prod.fst := by
  induction m with
  | nil => cases hv
  | cons e rest ih =>
    obtain ⟨u, c⟩ := e
    by_cases hu : u = v
    · simp [addCount, hu]
    · have hv' : v ∈ rest.map Prod.fst := by
        rcases List.mem_cons.mp hv with h | h
        · exact absurd h.symm (by simpa using hu)
        · exact h
      simp [addCount, hu, ih hv']

theorem nodup_keys_addCount (m : List (ℚ × ℕ)) (v : ℚ)
    (hm : (m.map Prod.fst).Nodup) : ((addCount m v).map Prod.fst).Nodup := by
  rcases keys_addCount m v with h | h
  · rw [h]; exact hm
  · rw [h]
    by_cases hmem : v ∈ m.map Prod.fst
    · rw [keys_addCount_mem m v hmem] at h
      have : (m.map Prod.fst).length = (m.map Prod.fst).length + 1 := by
        conv_lhs => rw [h]
        simp
      omega
    · simp only [List.nodup_append, List.nodup_cons, List.not_mem_nil, not_false_iff,
        List.nodup_nil, and_true, true_and]
      refine ⟨hm, ?_⟩
      intro a ha hb
      simp only [List.mem_singleton] at hb
      subst hb
      exact hmem ha

theorem nodup_keys_freqOf (l : List ℚ) : ((freqOf l).map Prod.fst).Nodup := by
  induction l using List.reverseRecOn with
  | nil => simp [freqOf]
  | append_singleton l x ih =>
    have hstep : freqOf (l ++ [x]) = addCount (freqOf l) x := by
      simp [freqOf, List.foldl_append]
    rw [hstep]
    exact nodup_keys_addCount _ x ih

theorem lookup_mem_q (m : List (ℚ × ℕ)) (k : ℚ) (c : ℕ) (h : m.lookup k = some c) :
    (k, c) ∈ m := by
  induction m with
  | nil => cases h
  | cons e rest ih =>
    obtain ⟨u, d⟩ := e
    by_cases hk : k = u
    · subst hk
      have hb : (k == k) = true := by simp
      simp only [List.lookup, hb] at h
      injection h with h
      subst h
      exact List.mem_cons_self _ _
    · have hb : (k == u) = false := by simp [hk]
      simp only [List.lookup, hb] at h
      exact List.mem_cons_of_mem _ (ih h)

theorem mem_lookup_q (m : List (ℚ × ℕ)) (k : ℚ) (c : ℕ)
    (hnd : (m.map Prod.fst).Nodup) (h : (k, c) ∈ m) : m.lookup k = some c := by
  induction m with
  | nil => cases h
  | cons e rest ih =>
    obtain ⟨u, d⟩ := e
    rcases List.mem_cons.mp h with he | he
    · injection he with h1 h2
      subst h1; subst h2
      have hb : (k == k) = true := by simp
      simp [List.lookup, hb]
    · have hk : ¬ k = u := by
        intro hk
        subst hk
        have : k ∈ rest.map Prod.fst := List.mem_map.mpr ⟨(k, c), he, rfl⟩
        simp only [List.map_cons, List.nodup_cons] at hnd
        exact hnd.1 this
      have hb : (k == u) = false := by simp [hk]
      simp only [List.lookup, hb]
      refine ih ?_ he
      simp only [List.map_cons, List.nodup_cons] at hnd
      exact hnd.2

theorem mem_freqOf (l : List ℚ) (e : ℚ × ℕ) (he : e ∈ freqOf l) :
    e.1 ∈ l ∧ e.2 = l.count e.1 := by
  have hl := mem_lookup_q (freqOf l) e.1 e.2 (nodup_keys_freqOf l) he
  rw [lookup_freqOf l e.1] at hl
  by_cases hmem : e.1 ∈ l
  · rw [if_pos hmem] at hl
    injection hl with hl
    exact ⟨hmem, hl.symm⟩
  · rw [if_neg hmem] at hl
    cases hl

theorem freqOf_mem (l : List ℚ) (v : ℚ) (hv : v ∈ l) : (v, l.count v) ∈ freqOf l := by
  apply lookup_mem_q
  rw [lookup_freqOf l v, if_pos hv]

theorem foldl_max_init_le (m : List (ℚ × ℕ)) :
    ∀ a : ℕ, a ≤ m.foldl (fun acc e => max acc e.2) a := by
  induction m with
  | nil => intro a; exact le_rfl
  | cons e rest ih =>
    intro a
    exact le_trans (le_max_left a e.2) (ih (max a e.2))

theorem mem_le_foldl_max (m : List (ℚ × ℕ)) :
    ∀ a : ℕ, ∀ e ∈ m, e.2 ≤ m.foldl (fun acc x => max acc x.2) a := by
  induction m with
  | nil => intro a e he; cases he
  | cons x rest ih =>
    intro a e he
    rcases List.mem_cons.mp he with he | he
    · subst he
      exact le_trans (le_max_right a e.2) (foldl_max_init_le rest _)
    · exact ih (max a x.2) e he

theorem foldl_max_le (m : List (ℚ × ℕ)) :
    ∀ a b : ℕ, (∀ e ∈ m, e.2 ≤ b) → a ≤ b →
      m.foldl (fun acc x => max acc x.2) a ≤ b := by
  induction m with
  | nil => intro a b _ hab; exact hab
  | cons x rest ih =>
    intro a b hm hab
    refine ih (max a x.2) b (fun e he => hm e (List.mem_cons_of_mem _ he)) ?_
    exact max_le hab (hm x (List.mem_cons_self _ _))

theorem foldl_max_attained (m : List (ℚ × ℕ)) :
    ∀ a : ℕ, m.foldl (fun acc x => max acc x.2) a = a ∨
      ∃ e ∈ m, m.foldl (fun acc x => max acc x.2) a = e.2 := by
  induction m with
  | nil => intro a; left; rfl
  | cons x rest ih =>
    intro a
    rcases ih (max a x.2) with h | ⟨e, he, hee⟩
    · by_cases hx : x.2 ≤ a
      · left
        simp only [List.foldl_cons, h]
        omega
      · right
        refine ⟨x, List.mem_cons_self _ _, ?_⟩
        simp only [List.foldl_cons, h]
        omega
    · right
      exact ⟨e, List.mem_cons_of_mem _ he, hee⟩

theorem maxC_append_one (m : List (ℚ × ℕ)) (e : ℚ × ℕ) :
    maxC (m ++ [e]) = max (maxC m) e.2 := by
  simp [maxC, List.foldl_append]

theorem modeScan_eq (m : List (ℚ × ℕ)) :
    modeScan m = (maxC m, (m.filter (fun e => e.2 == maxC m)).map Prod.fst) := by
  induction m using List.reverseRecOn with
  | nil => rfl
  | append_singleton m e ih =>
    have hstep : modeScan (m ++ [e]) =
        (fun st (x : ℚ × ℕ) =>
          if x.2 > st.1 then (x.2, [x.1])
          else if x.2 = st.1 then (st.1, st.2 ++ [x.1])
          else st) (modeScan m) e := by
      simp [modeScan, List.foldl_append]
    rw [hstep, ih, maxC_append_one]
    have hbound : ∀ x ∈ m, x.2 ≤ maxC m := mem_le_foldl_max m 0
    rcases Nat.lt_trichotomy (maxC m) e.2 with hlt | heq | hgt
    · have hmax : max (maxC m) e.2 = e.2 := by omega
      have hfil : m.filter (fun x => x.2 == e.2) = [] := by
        rw [List.filter_eq_nil_iff]
        intro x hx
        have := hbound x hx
        simp only [beq_iff_eq]
        omega
      simp only [hlt, if_pos, hmax]
      rw [List.filter_append]
      simp only [List.filter_cons, List.filter_nil, beq_self_eq_true, if_pos, hfil]
      rfl
    · have hmax : max (maxC m) e.2 = maxC m := by omega
      have hngt : ¬ e.2 > maxC m := by omega
      simp only [hngt, if_false, heq.symm, if_pos, hmax]
      rw [List.filter_append]
      simp only [List.filter_cons, List.filter_nil]
      have hb : (e.2 == maxC m) = true := by simp [heq]
      simp [hb, heq]
    · have hmax : max (maxC m) e.2 = maxC m := by omega
      have hngt : ¬ e.2 > maxC m := by omega
      have hneq : ¬ e.2 = maxC m := by omega
      simp only [hngt, if_false, hneq, hmax]
      rw [List.filter_append]
      simp only [List.filter_cons, List.filter_nil]
      have hb : (e.2 == maxC m) = false := by simp [hneq]
      simp [hb]

theorem foldl_min_mem (xs : List ℚ) :
    ∀ a : ℚ, xs.foldl min a = a ∨ xs.foldl min a ∈ xs := by
  induction xs with
  | nil => intro a; left; rfl
  | cons x rest ih =>
    intro a
    rcases ih (min a x) with h | h
    · rcases le_total a x with hax | hax
      · left
        simp only [List.foldl_cons, h]
        exact min_eq_left hax
      · right
        rw [List.foldl_cons, h, min_eq_right hax]
        exact List.mem_cons_self _ _
    · right
      exact List.mem_cons_of_mem _ h
  
theorem foldl_min_le (xs : List ℚ) :
    ∀ a : ℚ, xs.foldl min a ≤ a ∧ ∀ x ∈ xs, xs.foldl min a ≤ x := by
  induction xs with
  | nil => intro a; exact ⟨le_rfl, fun x hx => absurd hx (List.not_mem_nil x)⟩
  | cons y rest ih =>
    intro a
    obtain ⟨h1, h2⟩ := ih (min a y)
    refine ⟨le_trans h1 (min_le_left a y), ?_⟩
    intro x hx
    rcases List.mem_cons.mp hx with hxy | hxr
    · subst hxy
      exact le_trans h1 (min_le_right a x)
    · exact h2 x hxr

theorem listMin_spec (xs : List ℚ) (hne : xs ≠ []) :
    listMin xs ∈ xs ∧ ∀ x ∈ xs, listMin xs ≤ x := by
  cases xs with
  | nil => exact absurd rfl hne
  | cons x rest =>
    constructor
    · rcases foldl_min_mem rest x with h | h
      · rw [listMin, h]; exact List.mem_cons_self _ _
      · exact List.mem_cons_of_mem _ h
    · intro y hy
      obtain ⟨h1, h2⟩ := foldl_min_le rest x
      rcases List.mem_cons.mp hy with hxy | hyr
      · subst hxy; exact h1
      · exact h2 y hyr

/-- C5: for a non-empty list, `mode` returns None exactly when every value
occurs once; otherwise it returns a value of maximal occurrence count that is
the smallest among all values tied for that maximal count. -/
theorem mode_spec (l : List ℚ) (hne : l ≠ []) :
    (mode l = none ↔ ∀ v ∈ l, l.count v = 1) ∧
    ∀ m, mode l = some m →
      m ∈ l ∧ (∀ w ∈ l, l.count w ≤ l.count m) ∧
      ∀ w ∈ l, l.count w = l.count m → m ≤ w := by
  have hscan := modeScan_eq (freqOf l)
  have hbound : ∀ w ∈ l, l.count w ≤ maxC (freqOf l) := by
    intro w hw
    have := mem_le_foldl_max (freqOf l) 0 (w, l.count w) (freqOf_mem l w hw)
    exact this
  have hM1 : (maxC (freqOf l) ≤ 1) ↔ ∀ v ∈ l, l.count v = 1 := by
    constructor
    · intro hM v hv
      have h1 : 1 ≤ l.count v := List.count_pos_iff.mpr hv
      have h2 := hbound v hv
      omega
    · intro hall
      refine foldl_max_le (freqOf l) 0 1 ?_ (by omega)
      intro e he
      obtain ⟨hmem, hcnt⟩ := mem_freqOf l e he
      rw [hcnt, hall e.1 hmem]
  have hmode : mode l = (if maxC (freqOf l) ≤ 1 then none
      else some (listMin (((freqOf l).filter (fun e => e.2 == maxC (freqOf l))).map
        Prod.fst))) := by
    rw [mode, hscan]
  constructor
  · rw [hmode]
    by_cases hM : maxC (freqOf l) ≤ 1
    · simp only [hM, if_pos, true_iff]
      exact hM1.mp hM
    · simp only [hM, if_false]
      constructor
      · intro h; cases h
      · intro hall
        exact ((hM (hM1.mpr hall))).elim
  · intro m hm
    rw [hmode] at hm
    by_cases hM : maxC (freqOf l) ≤ 1
    · rw [if_pos hM] at hm; cases hm
    · rw [if_neg hM] at hm
      injection hm with hm
      -- the modes list is non-empty: the maximal count is attained
      have hattain : ∃ e ∈ freqOf l, e.2 = maxC (freqOf l) := by
        rcases foldl_max_attained (freqOf l) 0 with h | h
        · exfalso
          have : maxC (freqOf l) = 0 := h
          omega
        · exact h.imp (fun e he => ⟨he.1, he.2.symm⟩)
      obtain ⟨e0, he0, he0c⟩ := hattain
      have hne' : ((freqOf l).filter (fun e => e.2 == maxC (freqOf l))).map Prod.fst ≠ [] := by
        have : e0 ∈ (freqOf l).filter (fun e => e.2 == maxC (freqOf l)) :=
          List.mem_filter.mpr ⟨he0, by simp [he0c]⟩
        intro hnil
        rw [List.map_eq_nil_iff] at hnil
        rw [hnil] at this
        cases this
      obtain ⟨hmem, hmin⟩ := listMin_spec _ hne'
      rw [hm] at hmem hmin
      -- m is a key with maximal count
      obtain ⟨em, hemf, hemm⟩ := List.mem_map.mp hmem
      have hemtop := List.mem_filter.mp hemf
      obtain ⟨heml, hemc⟩ := mem_freqOf l em hemtop.1
      have hemcM : em.2 = maxC (freqOf l) := by simpa using hemtop.2
      have hmcount : l.count m = maxC (freqOf l) := by
        rw [← hemm, ← hemc, hemcM]
      refine ⟨hemm ▸ heml, ?_, ?_⟩
      · intro w hw
        rw [hmcount]
        exact hbound w hw
      · intro w hw hwc
        have hwmem : (w, l.count w) ∈ freqOf l := freqOf_mem l w hw
        have hwf : (w, l.count w) ∈ (freqOf l).filter (fun e => e.2 == maxC (freqOf l)) := by
          refine List.mem_filter.mpr ⟨hwmem, ?_⟩
          simp only [beq_iff_eq]
          rw [hwc, hmcount]
        have : w ∈ ((freqOf l).filter (fun e => e.2 == maxC (freqOf l))).map Prod.fst :=
          List.mem_map.mpr ⟨(w, l.count w), hwf, rfl⟩
        exact hmin w this

/-- Witness for C5: on [2, 1, 2, 3] the mode is 2 (the value of maximal
count), and on [1, 2, 3], where every value occurs once, the mode is None. -/
theorem mode_spec_witness :
    mode [(2:ℚ), 1, 2, 3] = some 2 ∧
    (∀ w ∈ [(2:ℚ), 1, 2, 3],
      List.count w [(2:ℚ), 1, 2, 3] ≤ List.count 2 [(2:ℚ), 1, 2, 3]) ∧
    mode [(1:ℚ), 2, 3] = none := by
  have h1 : mode [(2:ℚ), 1, 2, 3] = some 2 := rfl
  refine ⟨h1, ?_, ?_⟩
  · exact fun w hw => ((mode_spec [(2:ℚ), 1, 2, 3] (by decide)).2 2 h1).2.1 w hw
  · exact (mode_spec [(1:ℚ), 2, 3] (by decide)).1.mpr (by decide)

/- ## wordCount.py : `read_tokens`, `count_frequencies`, `format_results` -/

/-- `str.split()` with no argument, on a character list: maximal runs of
non-whitespace characters; never yields an empty part. `cur` is the reversed
run being collected. -/
def pySplitGo : List Char → List Char → List (List Char)
  | [], cur => if cur.isEmpty then [] else [cur.reverse]
  | c :: cs, cur =>
    if pyIsSpace c then
      if cur.isEmpty then pySplitGo cs [] else cur.reverse :: pySplitGo cs []
    else pySplitGo cs (c :: cur)

/-- Python `raw.split()`. -/
def pySplit (cs : List Char) : List (List Char) := pySplitGo cs []

/-- Python `str.splitlines()` restricted to the ASCII line boundaries
LF, CR, CRLF, VT and FF; `cur` is the reversed line being collected. -/
def pySplitlinesGo : List Char → List Char → List (List Char)
  | [], cur => if cur.isEmpty then [] else [cur.reverse]
  | '\r' :: '\n' :: cs, cur => cur.reverse :: pySplitlinesGo cs []
  | c :: cs, cur =>
    if c = '\n' ∨ c = '\r' ∨ c = '\x0b' ∨ c = '\x0c' then cur.reverse :: pySplitlinesGo cs []
    else pySplitlinesGo cs (c :: cur)

/-- Python `text.splitlines()`. -/
def pySplitlines (cs : List Char) : List (List Char) := pySplitlinesGo cs []

/-- The loop body of `read_tokens` on one `(line_no, raw)` pair: strip, skip
blank lines, split, then append each non-empty part to the tokens and record
an error for an empty part (the branch Python's `split()` makes dead). -/
def wcProcessLine (acc : List (List Char) × List String) (p : ℕ × List Char) :
    List (List Char) × List String :=
  let raw := pyStripChars p.2
  if raw.isEmpty then acc
  else
    (pySplit raw).foldl (fun a part =>
      if part.isEmpty then
        (a.1, a.2 ++ ["Line " ++ natRepr p.1 ++ ": empty token encountered"])
      else (a.1 ++ [part], a.2)) acc

/-- `read_tokens` from wordCount.py on the text of the file: the token list
and the error list. -/
def read_tokens (text : List Char) : List (List Char) × List String :=
  ((pySplitlines text).enumFrom 1).foldl wcProcessLine ([], [])

/-- One step `freq[tok] = freq.get(tok, 0) + 1`. -/
def addCountTok (m : List (List Char × ℕ)) (tok : List Char) : List (List Char × ℕ) :=
  match m with
  | [] => [(tok, 1)]
  | (w, c) :: rest => if w = tok then (w, c + 1) :: rest else (w, c) :: addCountTok rest tok

/-- `count_frequencies` from wordCount.py, an insertion-ordered dict. -/
def count_frequencies (tokens : List (List Char)) : List (List Char × ℕ) :=
  tokens.foldl (fun freq tok => addCountTok freq tok) []

/-- Insertion of a word into a sorted word list (Python `sorted` on the
dict's keys, by code-point comparison). -/
def insertSorted (s : List Char) : List (List Char) → List (List Char)
  | [] => [s]
  | t :: ts => if listLtB s t then s :: t :: ts else t :: insertSorted s ts

/-- Python `sorted` on the word list. -/
def sortWords (ws : List (List Char)) : List (List Char) := ws.foldr insertSorted []

/-- The Grand Total printed by `format_results`: the sum of `freq[word]` over
the sorted keys. -/
def wcGrandTotal (freq : List (List Char × ℕ)) : ℕ :=
  ((sortWords (freq.map Prod.fst)).map (fun w => ((freq.lookup w).getD 0))).sum

theorem reverse_ne_nil_of_ne_nil (cur : List Char) (h : ¬ cur.isEmpty = true) :
    ¬ ([] = cur.reverse) := by
  intro h0
  apply h
  rw [List.isEmpty_iff]
  have := congrArg List.reverse h0
  simpa using this.symm

theorem pySplitGo_ne_nil (cs : List Char) :
    ∀ cur : List Char, [] ∉ pySplitGo cs cur := by
  induction cs with
  | nil =>
    intro cur
    by_cases hc : cur.isEmpty = true
    · simp [pySplitGo, hc]
    · simp only [pySplitGo]
      rw [if_neg hc]
      simp only [List.mem_singleton]
      exact reverse_ne_nil_of_ne_nil cur hc
  | cons c cs ih =>
    intro cur
    by_cases hs : pyIsSpace c = true
    · by_cases hc : cur.isEmpty = true
      · simpa [pySplitGo, hs, hc] using ih []
      · simp only [pySplitGo]
        rw [if_pos hs, if_neg hc]
        simp only [List.mem_cons]
        rintro (h | h)
        · exact reverse_ne_nil_of_ne_nil cur hc h
        · exact ih [] h
    · simp only [pySplitGo]
      rw [if_neg hs]
      exact ih (c :: cur)

theorem pySplit_ne_nil (cs : List Char) : [] ∉ pySplit cs := pySplitGo_ne_nil cs []

theorem wc_foldl_all_nonempty (msg : String) (parts : List (List Char))
    (h : ∀ x ∈ parts, ¬ x.isEmpty = true) :
    ∀ a : List (List Char) × List String,
      (parts.foldl (fun a part =>
        if part.isEmpty then (a.1, a.2 ++ [msg]) else (a.1 ++ [part], a.2)) a)
      = (a.1 ++ parts, a.2) := by
  induction parts with
  | nil => intro a; simp
  | cons p ps ih =>
    intro a
    have hp : ¬ p.isEmpty = true := h p (List.mem_cons_self _ _)
    rw [List.foldl_cons, if_neg hp, ih (fun x hx => h x (List.mem_cons_of_mem _ hx))]
    simp

theorem wcProcessLine_spec (acc : List (List Char) × List String) (p : ℕ × List Char) :
    wcProcessLine acc p = (acc.1 ++ (if (pyStripChars p.2).isEmpty then []
      else pySplit (pyStripChars p.2)), acc.2) := by
  rw [wcProcessLine]
  by_cases hr : (pyStripChars p.2).isEmpty
  · simp [hr]
  · rw [if_neg hr, if_neg hr]
    rw [wc_foldl_all_nonempty _ _ ?hne acc]
    case hne =>
      intro x hx hempty
      rw [List.isEmpty_iff] at hempty
      subst hempty
      exact pySplit_ne_nil _ hx

theorem read_tokens_errors (text : List Char) : (read_tokens text).2 = [] := by
  rw [read_tokens]
  generalize (pySplitlines text).enumFrom 1 = lines
  suffices h : ∀ (acc : List (List Char) × List String),
      (lines.foldl wcProcessLine acc).2 = acc.2 by
    exact h ([], [])
  induction lines with
  | nil => intro acc; rfl
  | cons p ps ih =>
    intro acc
    rw [List.foldl_cons, ih, wcProcessLine_spec]

theorem insertSorted_perm (s : List Char) (ts : List (List Char)) :
    (insertSorted s ts).Perm (s :: ts) := by
  induction ts with
  | nil => exact List.Perm.refl _
  | cons t ts ih =>
    by_cases hlt : listLtB s t = true
    · simp [insertSorted, hlt]
    · simp only [insertSorted, hlt, if_false]
      exact (List.Perm.cons t ih).trans (List.Perm.swap s t ts)

theorem sortWords_perm (ws : List (List Char)) : (sortWords ws).Perm ws := by
  induction ws with
  | nil => exact List.Perm.refl _
  | cons w ws ih =>
    exact (insertSorted_perm w (sortWords ws)).trans (List.Perm.cons w ih)

theorem keys_addCountTok_mem (m : List (List Char × ℕ)) (t : List Char)
    (hv : t ∈ m.map Prod.fst) :
    (addCountTok m t).map Prod.fst = m.map Prod.fst := by
  induction m with
  | nil => cases hv
  | cons e rest ih =>
    obtain ⟨u, c⟩ := e
    by_cases hu : u = t
    · simp [addCountTok, hu]
    · have hv' : t ∈ rest.map Prod.fst := by
        rcases List.mem_cons.mp hv with h | h
        · exact absurd h.symm (by simpa using hu)
        · exact h
      simp [addCountTok, hu, ih hv']

theorem keys_addCountTok (m : List (List Char × ℕ)) (t : List Char) :
    (addCountTok m t).map Prod.fst = m.map Prod.fst ∨
    (addCountTok m t).map Prod.fst = m.map Prod.fst ++ [t] := by
  induction m with
  | nil => right; rfl
  | cons e rest ih =>
    obtain ⟨u, c⟩ := e
    by_cases hu : u = t
    · left; simp [addCountTok, hu]
    · rcases ih with h | h
      · left; simp [addCountTok, hu, h]
      · right; simp [addCountTok, hu, h]

theorem nodup_keys_addCountTok (m : List (List Char × ℕ)) (t : List Char)
    (hm : (m.map Prod.fst).Nodup) : ((addCountTok m t).map Prod.fst).Nodup := by
  rcases keys_addCountTok m t with h | h
  · rw [h]; exact hm
  · rw [h]
    by_cases hmem : t ∈ m.map Prod.fst
    · rw [keys_addCountTok_mem m t hmem] at h
      have hlen : (m.map Prod.fst).length = (m.map Prod.fst).length + 1 := by
        conv_lhs => rw [h]
        simp
      omega
    · simp only [List.nodup_append, List.nodup_cons, List.not_mem_nil, not_false_iff,
        List.nodup_nil, and_true, true_and]
      refine ⟨hm, ?_⟩
      intro a ha hb
      simp only [List.mem_singleton] at hb
      subst hb
      exact hmem ha

theorem nodup_keys_count_frequencies (tokens : List (List Char)) :
    ((count_frequencies tokens).map Prod.fst).Nodup := by
  induction tokens using List.reverseRecOn with
  | nil => simp [count_frequencies]
  | append_singleton toks t ih =>
    have hstep : count_frequencies (toks ++ [t])
        = addCountTok (count_frequencies toks) t := by
      simp [count_frequencies, List.foldl_append]
    rw [hstep]
    exact nodup_keys_addCountTok _ t ih

theorem sum_addCountTok (m : List (List Char × ℕ)) (t : List Char) :
    ((addCountTok m t).map Prod.snd).sum = (m.map Prod.snd).sum + 1 := by
  induction m with
  | nil => simp [addCountTok]
  | cons e rest ih =>
    obtain ⟨u, c⟩ := e
    by_cases hu : u = t
    · simp [addCountTok, hu]
      omega
    · simp [addCountTok, hu, ih]
      omega

theorem sum_count_frequencies (tokens : List (List Char)) :
    ((count_frequencies tokens).map Prod.snd).sum = tokens.length := by
  induction tokens using List.reverseRecOn with
  | nil => rfl
  | append_singleton toks t ih =>
    have hstep : count_frequencies (toks ++ [t])
        = addCountTok (count_frequencies toks) t := by
      simp [count_frequencies, List.foldl_append]
    rw [hstep, sum_addCountTok, ih]
    simp

theorem map_lookup_keys (m : List (List Char × ℕ)) (hnd : (m.map Prod.fst).Nodup) :
    (m.map Prod.fst).map (fun w => ((m.lookup w).getD 0)) = m.map Prod.snd := by
  induction m with
  | nil => rfl
  | cons e rest ih =>
    obtain ⟨k, c⟩ := e
    simp only [List.map_cons, List.nodup_cons] at hnd ⊢
    obtain ⟨hk, hrest⟩ := hnd
    have hb : (k == k) = true := by simp
    congr 1
    · simp [List.lookup, hb]
    · rw [← ih hrest]
      refine List.map_congr_left ?_
      intro w hw
      have hwk : (w == k) = false := by
        simp only [beq_eq_false_iff_ne, ne_eq]
        intro hwk
        subst hwk
        exact hk hw
      simp [List.lookup, hwk]

/-- C10: `read_tokens` returns an empty error list on every input text (the
empty-token branch is dead because `split()` never yields an empty part), so
the report has no error section, and the Grand Total of the word-count report
equals the total number of tokens. -/
theorem read_tokens_no_errors (text : List Char) :
    (read_tokens text).2 = [] ∧
    wcGrandTotal (count_frequencies (read_tokens text).1) = (read_tokens text).1.length := by
  refine ⟨read_tokens_errors text, ?_⟩
  set toks := (read_tokens text).1
  rw [wcGrandTotal]
  have hperm : (sortWords ((count_frequencies toks).map Prod.fst)).Perm
      ((count_frequencies toks).map Prod.fst) := sortWords_perm _
  have hmapperm := hperm.map (fun w => (((count_frequencies toks).lookup w).getD 0))
  rw [List.Perm.sum_eq hmapperm, map_lookup_keys _ (nodup_keys_count_frequencies toks),
    sum_count_frequencies]

/- ## A6.2 models : hotels, customers, reservations -/

/-- A hotel record as stored in data/hotels.json. -/
structure Hotel where
  hotel_id : ℤ
  name : String
  location : String
  rooms : ℤ
  reservations : List ℤ
deriving DecidableEq

/-- A reservation record as stored in data/reservations.json. -/
structure ReservationRec where
  reservation_id : ℤ
  customer_id : ℤ
  hotel_id : ℤ
deriving DecidableEq

/-- A customer record as stored in data/customers.json. -/
structure Customer where
  customer_id : ℤ
  name : String
  email : String
deriving DecidableEq

/-- The scan of `Reservation.create_reservation` over the hotels list: stop at
the first hotel with the given id; reject when its rooms do not exceed its
embedded reservation count, else book it. -/
inductive CreateOutcome where
  | noRooms : CreateOutcome
  | created : List Hotel → CreateOutcome
  | notFound : CreateOutcome
deriving DecidableEq

def createResScan (hid rid : ℤ) : List Hotel → CreateOutcome
  | [] => CreateOutcome.notFound
  | h :: rest =>
    if h.hotel_id = hid then
      if h.rooms ≤ (h.reservations.length : ℤ) then CreateOutcome.noRooms
      else CreateOutcome.created
        ({ h with reservations := h.reservations ++ [rid] } :: rest)
    else
      match createResScan hid rid rest with
      | CreateOutcome.created rest' => CreateOutcome.created (h :: rest')
      | o => o

/-- `Reservation.create_reservation` with the JSON stores passed in and the
new stores returned (`save_data` only runs on the success path, so on the
no-rooms and not-found paths both stores are returned unchanged). -/
def create_reservation (rid cid hid : ℤ)
    (reservations : List ReservationRec) (hotels : List Hotel) :
    List ReservationRec × List Hotel :=
  match createResScan hid rid hotels with
  | CreateOutcome.created hotels' =>
    (reservations ++ [{ reservation_id := rid, customer_id := cid, hotel_id := hid }],
      hotels')
  | _ => (reservations, hotels)

/-- Truthiness of an optional string argument (Python `if name:`). -/
def pyTruthyOptStr : Option String → Bool
  | some s => s != ""
  | none => false

/-- Truthiness of an optional integer argument (Python `if rooms:`). -/
def pyTruthyOptInt : Option ℤ → Bool
  | some r => r != 0
  | none => false

/-- `Hotel.modify_hotel`: every record matching the id has each field
replaced only when the supplied value is truthy. -/
def modify_hotel (hotels : List Hotel) (hid : ℤ) (nm loc : Option String)
    (rms : Option ℤ) : List Hotel :=
  hotels.map fun h =>
    if h.hotel_id = hid then
      { h with
        name := if pyTruthyOptStr nm then nm.getD "" else h.name,
        location := if pyTruthyOptStr loc then loc.getD "" else h.location,
        rooms := if pyTruthyOptInt rms then rms.getD 0 else h.rooms }
    else h

/-- `Customer.modify_customer`: same update discipline on customer records. -/
def modify_customer (customers : List Customer) (cid : ℤ)
    (nm email : Option String) : List Customer :=
  customers.map fun c =>
    if c.customer_id = cid then
      { c with
        name := if pyTruthyOptStr nm then nm.getD "" else c.name,
        email := if pyTruthyOptStr email then email.getD "" else c.email }
    else c

theorem createResScan_skip (hid rid : ℤ) (pre : List Hotel)
    (hpre : ∀ x ∈ pre, x.hotel_id ≠ hid) (rest : List Hotel) :
    createResScan hid rid (pre ++ rest) =
      match createResScan hid rid rest with
      | CreateOutcome.created rest' => CreateOutcome.created (pre ++ rest')
      | o => o := by
  induction pre with
  | nil =>
    simp only [List.nil_append]
    cases createResScan hid rid rest <;> rfl
  | cons x pre ih =>
    have hx : ¬ x.hotel_id = hid := hpre x (List.mem_cons_self _ _)
    simp only [List.cons_append, createResScan]
    rw [if_neg hx]
    simp only [List.append_eq]
    rw [ih (fun y hy => hpre y (List.mem_cons_of_mem _ hy))]
    cases createResScan hid rid rest <;> rfl

/-- C2: for the hotel record `create_reservation` finds (the first whose id
matches), creation is rejected with both stores unchanged when the embedded
reservation count equals the room count, and succeeds when the count is
strictly below the room count: one reservation record is appended to the
reservations store and the reservation id is appended to that hotel's
embedded list. -/
theorem create_reservation_capacity (rid cid hid : ℤ) (resv : List ReservationRec)
    (pre post : List Hotel) (h : Hotel)
    (hpre : ∀ x ∈ pre, x.hotel_id ≠ hid) (hh : h.hotel_id = hid) :
    ((h.reservations.length : ℤ) = h.rooms →
      create_reservation rid cid hid resv (pre ++ h :: post) = (resv, pre ++ h :: post)) ∧
    ((h.reservations.length : ℤ) < h.rooms →
      create_reservation rid cid hid resv (pre ++ h :: post) =
        (resv ++ [⟨rid, cid, hid⟩],
          pre ++ { h with reservations := h.reservations ++ [rid] } :: post)) := by
  have hscan := createResScan_skip hid rid pre hpre (h :: post)
  constructor
  · intro hfull
    have hcap : h.rooms ≤ (h.reservations.length : ℤ) := le_of_eq hfull.symm
    have hhead : createResScan hid rid (h :: post) = CreateOutcome.noRooms := by
      simp only [createResScan]
      rw [if_pos hh, if_pos hcap]
    rw [create_reservation, hscan, hhead]
  · intro hfree
    have hcap : ¬ h.rooms ≤ (h.reservations.length : ℤ) := by omega
    have hhead : createResScan hid rid (h :: post) =
        CreateOutcome.created ({ h with reservations := h.reservations ++ [rid] } :: post) := by
      simp only [createResScan]
      rw [if_pos hh, if_neg hcap]
    rw [create_reservation, hscan, hhead]

/-- The hotel of the C2 witness with its capacity exactly exhausted. -/
def c2HotelFull : Hotel := ⟨1, "F", "X", 2, [10, 11]⟩

/-- The hotel of the C2 witness with one room still free. -/
def c2HotelFree : Hotel := ⟨1, "F", "X", 2, [10]⟩

/-- Witness for C2: booking the full hotel changes nothing; booking the free
hotel appends the reservation record and embeds the id. -/
theorem create_reservation_capacity_witness :
    create_reservation 12 7 1 [] [c2HotelFull] = ([], [c2HotelFull]) ∧
    create_reservation 12 7 1 [] [c2HotelFree]
      = ([⟨12, 7, 1⟩], [⟨1, "F", "X", 2, [10, 12]⟩]) := by
  have T1 := create_reservation_capacity 12 7 1 [] [] [] c2HotelFull
    (fun x hx => absurd hx (List.not_mem_nil x)) rfl
  have T2 := create_reservation_capacity 12 7 1 [] [] [] c2HotelFree
    (fun x hx => absurd hx (List.not_mem_nil x)) rfl
  constructor
  · simpa using T1.1 (by decide)
  · simpa using T2.2 (by decide)

/-- C8: when no hotel record matches the given hotel_id, `create_reservation`
returns both stores unchanged: nothing is written on the error path. -/
theorem create_reservation_not_found (rid cid hid : ℤ) (resv : List ReservationRec)
    (hotels : List Hotel) (hnone : ∀ x ∈ hotels, x.hotel_id ≠ hid) :
    create_reservation rid cid hid resv hotels = (resv, hotels) := by
  have hscan : createResScan hid rid hotels = CreateOutcome.notFound := by
    induction hotels with
    | nil => rfl
    | cons x rest ih =>
      have hx : ¬ x.hotel_id = hid := hnone x (List.mem_cons_self _ _)
      simp only [createResScan]
      rw [if_neg hx, ih (fun y hy => hnone y (List.mem_cons_of_mem _ hy))]
  rw [create_reservation, hscan]

/-- The hotel store of the C8 witness. -/
def c8Hotel : Hotel := ⟨1, "H", "X", 2, []⟩

/-- Witness for C8: creating a reservation for the unknown hotel id 999
leaves both stores exactly as they were. -/
theorem create_reservation_not_found_witness :
    create_reservation 5 1 999 [] [c8Hotel] = ([], [c8Hotel]) :=
  create_reservation_not_found 5 1 999 [] [c8Hotel]
    (by
      intro x hx
      rw [List.mem_singleton] at hx
      subst hx
      decide)

/-- C9: `modify_hotel` and `modify_customer` update a field only when the
supplied value is truthy: rooms 0 and empty-string name/location/email leave
the matching record's fields unchanged, and records whose id does not match
are never changed by either operation. -/
theorem modify_truthy_frame (hotels : List Hotel) (customers : List Customer)
    (hid cid : ℤ) (nm loc : Option String) (rms : Option ℤ) (nm2 em : Option String) :
    modify_hotel hotels hid (some "") (some "") (some 0) = hotels ∧
    modify_customer customers cid (some "") (some "") = customers ∧
    (∀ i : ℕ, (∀ h ∈ hotels.get? i, h.hotel_id ≠ hid) →
      (modify_hotel hotels hid nm loc rms).get? i = hotels.get? i) ∧
    (∀ i : ℕ, (∀ c ∈ customers.get? i, c.customer_id ≠ cid) →
      (modify_customer customers cid nm2 em).get? i = customers.get? i) ∧
    (nm = some "" → (modify_hotel hotels hid nm loc rms).map Hotel.name
        = hotels.map Hotel.name) ∧
    (loc = some "" → (modify_hotel hotels hid nm loc rms).map Hotel.location
        = hotels.map Hotel.location) ∧
    (rms = some 0 → (modify_hotel hotels hid nm loc rms).map Hotel.rooms
        = hotels.map Hotel.rooms) ∧
    (nm2 = some "" → (modify_customer customers cid nm2 em).map Customer.name
        = customers.map Customer.name) ∧
    (em = some "" → (modify_customer customers cid nm2 em).map Customer.email
        = customers.map Customer.email) := by
  refine ⟨?_, ?_, ?_, ?_, ?_, ?_, ?_, ?_, ?_⟩
  · simp [modify_hotel, pyTruthyOptStr, pyTruthyOptInt]
  · simp [modify_customer, pyTruthyOptStr]
  · intro i hi
    rw [modify_hotel, List.get?_map]
    cases hg : hotels.get? i with
    | none => rfl
    | some h =>
      have hne : h.hotel_id ≠ hid := hi h (by rw [hg]; exact rfl)
      simp [hne]
  · intro i hi
    rw [modify_customer, List.get?_map]
    cases hg : customers.get? i with
    | none => rfl
    | some c =>
      have hne : c.customer_id ≠ cid := hi c (by rw [hg]; exact rfl)
      simp [hne]
  · intro hnm
    subst hnm
    rw [modify_hotel, List.map_map]
    refine List.map_congr_left ?_
    intro h _
    by_cases hmatch : h.hotel_id = hid <;>
      simp [hmatch, Function.comp, pyTruthyOptStr]
  · intro hloc
    subst hloc
    rw [modify_hotel, List.map_map]
    refine List.map_congr_left ?_
    intro h _
    by_cases hmatch : h.hotel_id = hid <;>
      simp [hmatch, Function.comp, pyTruthyOptStr]
  · intro hrms
    subst hrms
    rw [modify_hotel, List.map_map]
    refine List.map_congr_left ?_
    intro h _
    by_cases hmatch : h.hotel_id = hid <;>
      simp [hmatch, Function.comp, pyTruthyOptInt]
  · intro hnm2
    subst hnm2
    rw [modify_customer, List.map_map]
    refine List.map_congr_left ?_
    intro c _
    by_cases hmatch : c.customer_id = cid <;>
      simp [hmatch, Function.comp, pyTruthyOptStr]
  · intro hem
    subst hem
    rw [modify_customer, List.map_map]
    refine List.map_congr_left ?_
    intro c _
    by_cases hmatch : c.customer_id = cid <;>
      simp [hmatch, Function.comp, pyTruthyOptStr]

/-- First hotel of the C9 witness (its id matches the calls below). -/
def c9Hotel : Hotel := ⟨1, "H", "L", 5, []⟩

/-- Second hotel of the C9 witness (its id does not match). -/
def c9Hotel2 : Hotel := ⟨2, "K", "M", 3, []⟩

/-- Customer of the C9 witness. -/
def c9Cust : Customer := ⟨1, "N", "n@x"⟩

/-- Witness for C9: falsy arguments leave the stores unchanged, a non-matching
record is untouched by a real update, and an empty-string customer name is
not applied. -/
theorem modify_truthy_frame_witness :
    modify_hotel [c9Hotel, c9Hotel2] 1 (some "") (some "") (some 0) = [c9Hotel, c9Hotel2] ∧
    (modify_hotel [c9Hotel, c9Hotel2] 1 (some "New") none none).get? 1
        = [c9Hotel, c9Hotel2].get? 1 ∧
    (modify_customer [c9Cust] 1 (some "") (some "")).map Customer.name
        = [c9Cust].map Customer.name := by
  have T := modify_truthy_frame [c9Hotel, c9Hotel2] [c9Cust] 1 1 (some "New") none none
    (some "") (some "")
  refine ⟨T.1, ?_, T.2.2.2.2.2.2.2.1 rfl⟩
  refine T.2.2.1 1 ?_
  intro h hh
  have : [c9Hotel, c9Hotel2].get? 1 = some c9Hotel2 := rfl
  rw [this] at hh
  have hh2 : c9Hotel2 = h := by simpa using hh
  subst hh2
  decide
